import Mathlib

/-!
Verification of the VCF record store and its transform engine
(`VCFResult.py`): parsing, serialization, projection (`strip`),
cohort merge, derived-field computation and threshold filters.

The Python code is shallowly embedded:

* a Python `str` is a Lean `String`; the string primitives the code uses
  (`split` on a one-character separator, `join`, `strip`, `startswith`,
  substring test with a one-character needle, `int()`, `float()`) are
  defined below by structural recursion on the character list so that
  concrete instances evaluate inside the kernel;
* a Python `dict` (which preserves insertion order, and on assignment to
  an existing key overwrites the value while keeping the key's original
  position) is an insertion-ordered association list together with
  `dictInsert` / `dictLookup` / `dictAppendAt`;
* fallible Python code (uncaught `ValueError` / `IndexError` /
  `StopIteration` exceptions) is embedded in the `Option` monad: `none`
  means the call raises and produces no result;
* a file is modelled as its list of newline-terminated lines, so
  `VCFResult.read` consumes a `List String` and `VCFResult.write`
  produces one.
-/

/-! ## Python string primitives -/

/-- Embedding of Python `s.split(c)` for a one-character separator `c`,
    on the character list: `''.split(c) = ['']`, separators produce empty
    chunks. -/
def splitCharList (c : Char) : List Char → List (List Char)
  | [] => [[]]
  | a :: rest =>
    match splitCharList c rest with
    | [] => [[a]]
    | h :: t => if a = c then [] :: h :: t else (a :: h) :: t

/-- Embedding of Python `s.split(c)` for a one-character separator. -/
def splitOnCh (c : Char) (s : String) : List String :=
  (splitCharList c s.data).map (fun l => ⟨l⟩)

/-- Character-list version of Python `c.join(chunks)`. -/
def joinSepList (c : Char) : List (List Char) → List Char
  | [] => []
  | [x] => x
  | x :: y :: t => x ++ c :: joinSepList c (y :: t)

/-- Embedding of Python `c.join(strings)` for a one-character separator. -/
def joinCh (c : Char) (l : List String) : String :=
  ⟨joinSepList c (l.map String.data)⟩

/-- The characters Python `str.strip()` removes. -/
def isPySpace (c : Char) : Bool :=
  c = ' ' || c = '\t' || c = '\n' || c = '\r' || c = '\x0b' || c = '\x0c'

/-- Character-list version of Python `s.strip()`. -/
def pyStripList (l : List Char) : List Char :=
  ((l.dropWhile isPySpace).reverse.dropWhile isPySpace).reverse

/-- Embedding of Python `s.strip()` (no arguments: strips whitespace). -/
def pyStrip (s : String) : String := ⟨pyStripList s.data⟩

/-- Boolean prefix test on character lists. -/
def charsLead : List Char → List Char → Bool
  | [], _ => true
  | _ :: _, [] => false
  | a :: p, b :: s => a = b && charsLead p s

/-- Embedding of Python `s.startswith(p)`. -/
def pyStartsWith (p s : String) : Bool := charsLead p.data s.data

/-- Embedding of Python's substring test `c in s` for a one-character
    needle `c` (the only form the code uses, in `remove_empty`). -/
def pyContainsChar (c : Char) (s : String) : Bool := s.data.contains c

/-- Value of a nonempty all-digit character list, `none` otherwise. -/
def digitsVal : List Char → Option Nat
  | [] => none
  | [c] => if c.isDigit then some (c.toNat - 48) else none
  | c :: rest => do
    let n ← digitsVal rest
    if c.isDigit then some ((c.toNat - 48) * 10 ^ rest.length + n) else none

/-- Embedding of Python `int(s)` on decimal literals: surrounding
    whitespace is stripped, an optional sign is allowed, the rest must be
    decimal digits; any other input raises (`none`). -/
def pyInt (s : String) : Option Int :=
  match pyStripList s.data with
  | '-' :: r => (digitsVal r).map (fun n => -(n : Int))
  | '+' :: r => (digitsVal r).map (fun n => (n : Int))
  | r => (digitsVal r).map (fun n => (n : Int))

/-- Embedding of Python `float(s)` on plain decimal literals
    (`digits`, `digits.digits`, `.digits`, `digits.`, optionally signed),
    valued in `ℚ`; anything else raises (`none`).  IEEE rounding is not
    modelled: the decimal literal is interpreted exactly. -/
def pyFloat (s : String) : Option ℚ :=
  let t := pyStripList s.data
  let signed : Bool × List Char :=
    match t with
    | '-' :: r => (true, r)
    | '+' :: r => (false, r)
    | r => (false, r)
  match splitCharList '.' signed.2 with
  | [a] => (digitsVal a).map (fun n => if signed.1 then -(mkRat n 1) else mkRat n 1)
  | [a, b] =>
    if a = [] && b = [] then none
    else do
      let na ← if a = [] then some 0 else digitsVal a
      let nb ← if b = [] then some 0 else digitsVal b
      let q : ℚ := mkRat (na * 10 ^ b.length + nb) (10 ^ b.length)
      pure (if signed.1 then -q else q)
  | _ => none

/-- Embedding of Python string repetition `s * k` as used in
    `'./.' + ':.' * (n-1)`: `strTimes s k` is `s` concatenated `k`
    times. -/
def strTimes (s : String) : Nat → String
  | 0 => ""
  | k + 1 => s ++ strTimes s k

/-! ## Option-monad list helpers (embedding loops that may raise) -/

/-- Map a fallible function over a list; the first failure aborts the
    whole computation (a Python loop whose body may raise). -/
def optMap (f : α → Option β) : List α → Option (List β)
  | [] => some []
  | a :: t => do
    let b ← f a
    let r ← optMap f t
    pure (b :: r)

/-- Fold a fallible step over a list (a Python loop building up state
    whose body may raise). -/
def optFold (f : σ → α → Option σ) : σ → List α → Option σ
  | s, [] => some s
  | s, a :: t =>
    match f s a with
    | none => none
    | some s' => optFold f s' t

/-! ## Python dict as an insertion-ordered association list -/

/-- Embedding of Python `d[k] = v`: if `k` is already bound, the first
    binding is overwritten in place (keeping its position); otherwise
    the new binding is appended at the end. -/
def dictInsert (d : List (String × α)) (k : String) (v : α) : List (String × α) :=
  match d with
  | [] => [(k, v)]
  | (k', v') :: rest =>
    if k' = k then (k, v) :: rest else (k', v') :: dictInsert rest k v

/-- Embedding of Python `d[k]` / `d.get(k)`: first binding of `k`. -/
def dictLookup (d : List (String × α)) (k : String) : Option α :=
  match d with
  | [] => none
  | (k', v') :: rest => if k' = k then some v' else dictLookup rest k

/-- Embedding of Python `k in d`. -/
def dictMem (k : String) (d : List (String × α)) : Bool :=
  (dictLookup d k).isSome

/-- Embedding of Python `d[k] += extra` on a list-valued dict when `k`
    is known to be present: the (first) binding of `k` is extended in
    place. -/
def dictAppendAt (d : List (String × List String)) (k : String) (extra : List String) :
    List (String × List String) :=
  match d with
  | [] => []
  | (k', v') :: rest =>
    if k' = k then (k', v' ++ extra) :: rest else (k', v') :: dictAppendAt rest k extra

/-- Keys of an association list, in order. -/
def keysOf (d : List (String × α)) : List String := d.map Prod.fst

/-- Run a fallible per-record rewrite over a store's records, inserting
    each result under its (unchanged) key into a fresh dict — the shape
    of every `for record, fields in self.data.items(): ...;
    vcf_result.data[record] = fields` loop in the code. -/
def dictMapM (F : String → List String → Option (List String))
    (l : List (String × List String)) : Option (List (String × List String)) :=
  optFold (fun acc kf =>
    match F kf.1 kf.2 with
    | none => none
    | some g => some (dictInsert acc kf.1 g)) [] l

/-! ## The record store -/

/-- Embedding of the Python class `VCFResult`: metadata lines, header,
    and the insertion-ordered record dict keyed by the composite
    `CHROM:POS:REF:ALT` key. -/
structure VCFResult where
  meta : List String
  head : List String
  data : List (String × List String)
deriving DecidableEq

/-- The module-level constant `VCF_HEADERS`. -/
def VCF_HEADERS : List String :=
  ["#CHROM", "POS", "ID", "REF", "ALT", "QUAL", "FILTER", "INFO", "FORMAT"]

/-- The `samples` property: `self.head[9:]`. -/
def VCFResult.samples (v : VCFResult) : List String := v.head.drop 9

/-- The `shape` property: `(len(self.head[9:]), len(self.data))`. -/
def VCFResult.shape (v : VCFResult) : Nat × Nat :=
  (v.head.drop 9 |>.length, v.data.length)

/-- Embedding of Python `l[i] = a`: `none` when `i` is out of range
    (an uncaught `IndexError`). -/
def setIdx (l : List α) (i : Nat) (a : α) : Option (List α) :=
  if i < l.length then some (l.set i a) else none

/-- Embedding of Python `l.index(x)` on lists: position of the first
    occurrence, `none` when absent (an uncaught `ValueError`). -/
def pyIndex (x : String) : List String → Option Nat
  | [] => none
  | a :: t => if a = x then some 0 else (pyIndex x t).map (· + 1)

/-- The subfield list `_subfields` computed by `strip`:
    `['GT']` when `subfields is None`, else `['GT'] + subfields`. -/
def subsOf : Option (List String) → List String
  | none => ["GT"]
  | some s => "GT" :: s

/-- Per-record body of the `strip` loop: blank ID/FILTER/INFO
    (indices 2, 6, 7 — QUAL at index 5 is untouched by the code),
    resolve the positions of `_subfields` in the record's FORMAT
    declaration (`fields[8]`), rewrite FORMAT to the joined subfield
    list and every sample cell to the values at the resolved
    positions. -/
def stripFields (subs : List String) (fields : List String) : Option (List String) := do
  let f ← setIdx fields 2 "."
  let f ← setIdx f 6 "."
  let f ← setIdx f 7 "."
  let fmt ← f.get? 8
  let idxs ← optMap (fun s => pyIndex s (splitOnCh ':' fmt)) subs
  let f ← setIdx f 8 (joinCh ':' subs)
  let newTail ← optMap
    (fun x => (optMap (fun i => (splitOnCh ':' x).get? i) idxs).map (joinCh ':'))
    (f.drop 9)
  pure (f.take 9 ++ newTail)

/-- Embedding of `VCFResult.strip`: fresh store (empty metadata), header
    deep-copied, every record rewritten by `stripFields`. -/
def VCFResult.strip (v : VCFResult) (subfields : Option (List String)) :
    Option VCFResult :=
  (dictMapM (fun _ f => stripFields (subsOf subfields) f) v.data).map
    (fun d => ⟨[], v.head, d⟩)

/-- State of the receiver after `strip` returns.  The Python loop
    mutates each record's field list in place (`fields[2] = '.'`, …,
    `fields[9:] = …`) and stores the very same list objects in the
    result's dict, so once `strip` succeeds the receiver's records hold
    the stripped field lists (only `head` and `meta` keep their old
    values).  This definition makes that post-call state explicit. -/
def VCFResult.stripSelfEffect (v : VCFResult) (subfields : Option (List String)) :
    Option VCFResult :=
  (v.strip subfields).map (fun w => ⟨v.meta, v.head, w.data⟩)

/-- Embedding of `VCFResult.merge`: strip both operands with the same
    subfield list, concatenate headers, build the missing-genotype
    template from the first record of the stripped second store
    (`next(iter(vcf2.data.items()))` — raises when it is empty), then
    run the two insertion loops. -/
def VCFResult.merge (v other : VCFResult) (subfields : Option (List String)) :
    Option VCFResult := do
  let vcf1 ← v.strip subfields
  let vcf2 ← other.strip subfields
  let fk ← vcf2.data.head?
  let fmt8 ← fk.2.get? 8
  let n := (splitOnCh ':' fmt8).length
  let missing := "./." ++ strTimes ":." (n - 1)
  let d1 := vcf1.data.foldl (fun acc kf =>
    if dictMem kf.1 vcf2.data then dictInsert acc kf.1 kf.2
    else dictInsert acc kf.1 (kf.2 ++ List.replicate vcf2.shape.1 missing)) []
  let d2 := vcf2.data.foldl (fun acc kf =>
    if dictMem kf.1 acc then dictAppendAt acc kf.1 (kf.2.drop 9)
    else dictInsert acc kf.1
      (kf.2.take 9 ++ List.replicate vcf1.shape.1 missing ++ kf.2.drop 9)) d1
  pure ⟨[], vcf1.head ++ vcf2.head.drop 9, d2⟩

/-- Per-sample body of `add_dp`: split the AD subfield on commas; if any
    component is the missing token the derived value is missing
    (`f'{x}:.'`), otherwise the components are summed
    (`int` raising on non-numeric components). -/
def sumDepths : List String → Option (Option Int)
  | [] => some (some 0)
  | d :: t =>
    if d = "." then some none
    else do
      let z ← pyInt d
      let r ← sumDepths t
      match r with
      | none => some none
      | some m => some (some (z + m))

/-- Decimal rendering of an integer, as Python `str(int)`. -/
def intDecimal (z : Int) : String :=
  match z with
  | Int.ofNat n => ⟨Nat.toDigits 10 n⟩
  | Int.negSucc n => "-" ++ ⟨Nat.toDigits 10 (n + 1)⟩

/-- The helper `func(x, i)` inside `add_dp`. -/
def addDpCell (i : Nat) (x : String) : Option String := do
  let cell ← (splitOnCh ':' x).get? i
  let r ← sumDepths (splitOnCh ',' cell)
  match r with
  | none => pure (x ++ ":.")
  | some dp => pure (x ++ ":" ++ intDecimal dp)

/-- Embedding of `VCFResult.add_dp`: locate AD in each record's FORMAT,
    append the derived DP subfield to every sample cell and to
    FORMAT. -/
def VCFResult.add_dp (v : VCFResult) : Option VCFResult :=
  (dictMapM (fun _ f => do
      let fmt ← f.get? 8
      let i ← pyIndex "AD" (splitOnCh ':' fmt)
      let newTail ← optMap (addDpCell i) (f.drop 9)
      let f2 ← setIdx f 8 (fmt ++ ":DP")
      pure (f2.take 9 ++ newTail)) v.data).map
    (fun d => ⟨[], v.head, d⟩)

/-- The helper `func(x, i)` inside `filter_dp`: replace the cell by the
    all-missing template of its own cardinality when the DP value is the
    missing token or numerically below the threshold. -/
def filterDpCell (threshold : Int) (i : Nat) (x : String) : Option String := do
  let l := splitOnCh ':' x
  let dp ← l.get? i
  if dp = "." then pure ("./." ++ strTimes ":." (l.length - 1))
  else do
    let z ← pyInt dp
    pure (if z < threshold then "./." ++ strTimes ":." (l.length - 1) else x)

/-- Embedding of `VCFResult.filter_dp`. -/
def VCFResult.filter_dp (v : VCFResult) (threshold : Int) : Option VCFResult :=
  (dictMapM (fun _ f => do
      let fmt ← f.get? 8
      let i ← pyIndex "DP" (splitOnCh ':' fmt)
      let newTail ← optMap (filterDpCell threshold i) (f.drop 9)
      pure (f.take 9 ++ newTail)) v.data).map
    (fun d => ⟨[], v.head, d⟩)

/-- The helper `func(x, i)` inside `filter_af` (float semantics modelled
    exactly over `ℚ`). -/
def filterAfCell (threshold : ℚ) (i : Nat) (x : String) : Option String := do
  let l := splitOnCh ':' x
  let af ← l.get? i
  if af = "." then pure ("./." ++ strTimes ":." (l.length - 1))
  else do
    let z ← pyFloat af
    pure (if z < threshold then "./." ++ strTimes ":." (l.length - 1) else x)

/-- Embedding of `VCFResult.filter_af`. -/
def VCFResult.filter_af (v : VCFResult) (threshold : ℚ) : Option VCFResult :=
  (dictMapM (fun _ f => do
      let fmt ← f.get? 8
      let i ← pyIndex "AF" (splitOnCh ':' fmt)
      let newTail ← optMap (filterAfCell threshold i) (f.drop 9)
      pure (f.take 9 ++ newTail)) v.data).map
    (fun d => ⟨[], v.head, d⟩)

/-- The genotype subfield of a sample cell: `x.split(':')[0]`
    (`split` never returns an empty list, so index 0 never raises). -/
def gtOf (x : String) : String := (splitOnCh ':' x).headD ""

/-- The emptiness test of `remove_empty` on one record:
    `all(['.' in x.split(':')[0] for x in fields[9:]])` — note the
    substring test, and that it is vacuously true when there are no
    sample columns. -/
def recordEmpty (fields : List String) : Bool :=
  (fields.drop 9).all (fun x => pyContainsChar '.' (gtOf x))

/-- Embedding of `VCFResult.remove_empty` (total: it only reads). -/
def VCFResult.remove_empty (v : VCFResult) : VCFResult :=
  ⟨[], v.head,
    v.data.foldl (fun acc kf =>
      if recordEmpty kf.2 then acc else dictInsert acc kf.1 kf.2) []⟩

/-- Embedding of `VCFResult.update`: whitelist the requested names, look
    up their positions in `VCF_HEADERS`, and for records whose key also
    exists in `other` overwrite those positions with `other`'s values. -/
def VCFResult.update (v other : VCFResult) (names : List String) :
    Option VCFResult := do
  let targets : List String := ["ID", "QUAL", "FILTER", "INFO", "FORMAT"]
  let kept := names.filter (fun x => targets.contains x)
  let idxs ← optMap (fun x => pyIndex x VCF_HEADERS) kept
  (dictMapM (fun k f1 =>
      match dictLookup other.data k with
      | none => some f1
      | some f2 => optFold (fun acc i => do
          let val ← f2.get? i
          setIdx acc i val) f1 idxs) v.data).map
    (fun d => ⟨[], v.head, d⟩)

/-- Embedding of `VCFResult.apply`: note the fresh result keeps the
    default header (`apply` never copies `self.head`). -/
def VCFResult.apply (v : VCFResult) (name : String) (func : String → String) :
    Option VCFResult := do
  let i ← pyIndex name VCF_HEADERS
  (dictMapM (fun _ f => do
      let x ← f.get? i
      setIdx f i (func x)) v.data).map
    (fun d => ⟨[], VCF_HEADERS, d⟩)

/-- One line of `VCFResult.read`'s loop: `##`-lines are appended to the
    metadata verbatim; a `#CHROM` line becomes the header; any other
    line is stripped, split on tabs and inserted under the composite
    `CHROM:POS:REF:ALT` key (the four accesses raise `IndexError` when
    the line has fewer than five fields). -/
def readStep (v : VCFResult) (line : String) : Option VCFResult :=
  if pyStartsWith "##" line then some { v with meta := v.meta ++ [line] }
  else if pyStartsWith "#CHROM" line then
    some { v with head := splitOnCh '\t' (pyStrip line) }
  else do
    let fields := splitOnCh '\t' (pyStrip line)
    let f0 ← fields.get? 0
    let f1 ← fields.get? 1
    let f3 ← fields.get? 3
    let f4 ← fields.get? 4
    pure { v with
      data := dictInsert v.data (f0 ++ ":" ++ f1 ++ ":" ++ f3 ++ ":" ++ f4) fields }

/-- Embedding of `VCFResult.read` over the file's lines. -/
def readLines (lines : List String) : Option VCFResult :=
  optFold readStep ⟨[], VCF_HEADERS, []⟩ lines

/-- Embedding of `VCFResult.write` over lines: metadata verbatim, then
    the tab-joined header, then one tab-joined line per record in
    insertion order. -/
def serializeLines (v : VCFResult) : List String :=
  v.meta ++ [joinCh '\t' v.head] ++ v.data.map (fun kf => joinCh '\t' kf.2)

/-! ## Concrete stores used in witnesses and counterexamples -/

/-- A one-sample store with two records, non-trivial ID/QUAL/FILTER/INFO
    on the second. -/
def storeA : VCFResult :=
  ⟨[], ["#CHROM", "POS", "ID", "REF", "ALT", "QUAL", "FILTER", "INFO", "FORMAT", "S1"],
   [("chr1:100:G:C", ["chr1", "100", ".", "G", "C", ".", ".", ".", "GT:AD", "0/1:10,5"]),
    ("chr2:200:A:T", ["chr2", "200", "rs9", "A", "T", "50", "PASS", "AC=1", "GT:AD", "1/1:0,7"])]⟩

/-- A one-sample store sharing `storeA`'s first key and adding a key of
    its own. -/
def storeB : VCFResult :=
  ⟨[], ["#CHROM", "POS", "ID", "REF", "ALT", "QUAL", "FILTER", "INFO", "FORMAT", "S2"],
   [("chr1:100:G:C", ["chr1", "100", ".", "G", "C", ".", ".", ".", "GT:AD", "0/0:20,0"]),
    ("chr3:300:C:G", ["chr3", "300", ".", "C", "G", ".", ".", ".", "GT:AD", "0/1:3,4"])]⟩

/-- A store with no records and one sample column. -/
def storeEmpty : VCFResult :=
  ⟨[], ["#CHROM", "POS", "ID", "REF", "ALT", "QUAL", "FILTER", "INFO", "FORMAT", "S2"], []⟩

/-- A single-record store whose QUAL field is a real value, not `.`. -/
def storeQual : VCFResult :=
  ⟨[], ["#CHROM", "POS", "ID", "REF", "ALT", "QUAL", "FILTER", "INFO", "FORMAT", "S1"],
   [("chr1:100:G:C", ["chr1", "100", "rs1", "G", "C", "50", "PASS", "AC=1", "GT:AD", "0/1:10,5"])]⟩

/-- A store holding two records under distinct dict keys whose field
    rows nevertheless serialize to the same composite key. -/
def storeDupKey : VCFResult :=
  ⟨[], VCF_HEADERS,
   [("k1", ["chr1", "100", ".", "G", "C", ".", ".", ".", "GT"]),
    ("k2", ["chr1", "100", ".", "G", "C", ".", ".", ".", "GT"])]⟩

/-- A single-record store whose only sample genotype is the partial call
    `./1`. -/
def storeHalfCall : VCFResult :=
  ⟨[], ["#CHROM", "POS", "ID", "REF", "ALT", "QUAL", "FILTER", "INFO", "FORMAT", "S1"],
   [("chr1:100:G:C", ["chr1", "100", ".", "G", "C", ".", ".", ".", "GT", "./1"])]⟩

/-- A two-sample store with DP declared, one cell at depth 15 and one at
    depth 8 (the spec's concrete filter scenario). -/
def storeDP : VCFResult :=
  ⟨[], ["#CHROM", "POS", "ID", "REF", "ALT", "QUAL", "FILTER", "INFO", "FORMAT", "S1", "S2"],
   [("chr1:100:G:C",
     ["chr1", "100", ".", "G", "C", ".", ".", ".", "GT:AD:DP", "0/1:10,5:15", "0/1:5,3:8"])]⟩

/-- A two-sample store with AF declared, one cell at frequency 0.25 and
    one at 0.05. -/
def storeAF : VCFResult :=
  ⟨[], ["#CHROM", "POS", "ID", "REF", "ALT", "QUAL", "FILTER", "INFO", "FORMAT", "S1", "S2"],
   [("chr1:100:G:C",
     ["chr1", "100", ".", "G", "C", ".", ".", ".", "GT:AF", "0/1:0.25", "0/1:0.05"])]⟩

/-! ## Closed theorems: code bugs and counterexamples -/

/-- C4: the claim is that every transform leaves the input store's
    records unchanged and returns unaliased field lists.  The code does
    the opposite: `strip` rewrites each record's field list in place and
    stores the same list objects in the result, so after the call the
    receiver's record for `chr1:100:G:C` has lost its ID/FILTER/INFO,
    FORMAT and sample subfields (QUAL survives because the code never
    touches index 5).  `VCFResult.stripSelfEffect` is the post-call
    state of the receiver; at this concrete input it differs from the
    original store. -/
theorem strip_mutates_receiver :
    VCFResult.stripSelfEffect storeQual none =
      some ⟨storeQual.meta, storeQual.head,
        [("chr1:100:G:C", ["chr1", "100", ".", "G", "C", "50", ".", ".", "GT", "0/1"])]⟩ ∧
    VCFResult.stripSelfEffect storeQual none ≠ some storeQual := by
  exact ⟨by decide, by decide⟩

/-- C6: the claim is that parse rejects any data line with fewer fields
    than the header declares (`MalformedLine`) and never inserts a short
    record.  The code has no such check: under a ten-column header the
    five-field line `chr1  100  .  G  C` is inserted as a five-field
    record, violating `len(record.fields) == len(header)` with no
    error. -/
theorem read_inserts_short_record :
    readLines
      ["#CHROM\tPOS\tID\tREF\tALT\tQUAL\tFILTER\tINFO\tFORMAT\tS1",
       "chr1\t100\t.\tG\tC"] =
      some ⟨[],
        ["#CHROM", "POS", "ID", "REF", "ALT", "QUAL", "FILTER", "INFO", "FORMAT", "S1"],
        [("chr1:100:G:C", ["chr1", "100", ".", "G", "C"])]⟩ ∧
    (["chr1", "100", ".", "G", "C"] : List String).length ≠
      (["#CHROM", "POS", "ID", "REF", "ALT", "QUAL", "FILTER", "INFO", "FORMAT", "S1"] :
        List String).length := by
  exact ⟨by decide, by decide⟩

/-- C2 counterexample: the claim says `strip` blanks ID, QUAL, FILTER
    and INFO.  On a record with QUAL `50` the stripped record keeps
    QUAL `50` (only indices 2, 6, 7 are blanked), so the QUAL clause is
    false. -/
theorem strip_qual_counterexample :
    VCFResult.strip storeQual (some ["AD"]) =
      some ⟨[], storeQual.head,
        [("chr1:100:G:C",
          ["chr1", "100", ".", "G", "C", "50", ".", ".", "GT:AD", "0/1:10,5"])]⟩ ∧
    (["chr1", "100", ".", "G", "C", "50", ".", ".", "GT:AD", "0/1:10,5"] : List String).get? 5 ≠
      some "." := by
  exact ⟨by decide, by decide⟩

/-- C7 counterexample: the claim quantifies over every store.  For the
    store holding two records under distinct dict keys whose rows
    serialize to the same composite key, parsing the serialization
    collapses the two rows (last write wins), so re-serializing yields
    two lines instead of three — not byte-identical. -/
theorem roundtrip_counterexample :
    readLines (serializeLines storeDupKey) =
      some ⟨[], VCF_HEADERS, [("chr1:100:G:C", ["chr1", "100", ".", "G", "C", ".", ".", ".", "GT"])]⟩ ∧
    serializeLines ⟨[], VCF_HEADERS,
        [("chr1:100:G:C", ["chr1", "100", ".", "G", "C", ".", ".", ".", "GT"])]⟩ ≠
      serializeLines storeDupKey := by
  exact ⟨by decide, by decide⟩

/-- C9 counterexample: the claim says a record whose every sample
    genotype is the partial call `./1` is retained.  The code tests
    `'.' in gt` (substring), so `./1` counts as empty and the record is
    removed. -/
theorem remove_empty_counterexample :
    VCFResult.remove_empty storeHalfCall = ⟨[], storeHalfCall.head, []⟩ ∧
    storeHalfCall.data ≠ [] := by
  exact ⟨by decide, by decide⟩

/-! ## Infrastructure lemmas: Option-monad maps and folds -/

theorem optMap_cons_eq_some {f : α → Option β} {a : α} {t : List α} {r : List β} :
    optMap f (a :: t) = some r ↔
      ∃ b r', f a = some b ∧ optMap f t = some r' ∧ r = b :: r' := by
  constructor
  · intro h
    cases hb : f a with
    | none => simp [optMap, hb] at h
    | some b =>
      cases hr : optMap f t with
      | none => simp [optMap, hb, hr] at h
      | some r' =>
        refine ⟨b, r', rfl, rfl, ?_⟩
        simp [optMap, hb, hr] at h
        exact h.symm
  · rintro ⟨b, r', hb, hr, rfl⟩
    simp [optMap, hb, hr]

theorem optMap_length {f : α → Option β} {l : List α} {r : List β}
    (h : optMap f l = some r) : r.length = l.length := by
  induction l generalizing r with
  | nil => simp [optMap] at h; simp [← h]
  | cons a t ih =>
    rcases optMap_cons_eq_some.1 h with ⟨b, r', _, hr, rfl⟩
    simp [ih hr]

theorem optMap_eq_none_of_mem {f : α → Option β} {l : List α} {a : α}
    (ha : a ∈ l) (hf : f a = none) : optMap f l = none := by
  induction l with
  | nil => cases ha
  | cons x t ih =>
    rcases List.mem_cons.1 ha with rfl | hm
    · simp [optMap, hf]
    · cases hx : f x with
      | none => simp [optMap, hx]
      | some b => simp [optMap, hx, ih hm]

theorem optFold_append {f : σ → α → Option σ} {s : σ} {l₁ l₂ : List α} :
    optFold f s (l₁ ++ l₂) =
      match optFold f s l₁ with
      | none => none
      | some s' => optFold f s' l₂ := by
  induction l₁ generalizing s with
  | nil => simp [optFold]
  | cons a t ih =>
    simp only [List.cons_append, optFold]
    cases f s a with
    | none => rfl
    | some s' => exact ih

/-! ## Infrastructure lemmas: the dict model -/

theorem dictLookup_eq_none_iff {d : List (String × α)} {k : String} :
    dictLookup d k = none ↔ k ∉ keysOf d := by
  induction d with
  | nil => simp [dictLookup, keysOf]
  | cons kv rest ih =>
    obtain ⟨k', v'⟩ := kv
    by_cases h : k' = k
    · subst h; simp [dictLookup, keysOf]
    · simp [dictLookup, h, keysOf, ih, Ne.symm h]

theorem dictMem_iff {d : List (String × α)} {k : String} :
    dictMem k d = true ↔ k ∈ keysOf d := by
  unfold dictMem
  rw [Option.isSome_iff_ne_none]
  constructor
  · intro h
    by_contra hk
    exact h (dictLookup_eq_none_iff.2 hk)
  · intro h hn
    exact dictLookup_eq_none_iff.1 hn h

theorem dictInsert_fresh {d : List (String × α)} {k : String} {v : α}
    (h : k ∉ keysOf d) : dictInsert d k v = d ++ [(k, v)] := by
  induction d with
  | nil => rfl
  | cons kv rest ih =>
    obtain ⟨k', v'⟩ := kv
    have hk : k' ≠ k := by
      intro h'; exact h (by simp [keysOf, h'])
    have hr : k ∉ keysOf rest := by
      intro h'; exact h (by simp [keysOf] at h' ⊢; right; exact h')
    simp [dictInsert, hk, ih hr]

theorem dictLookup_append_left {d₁ d₂ : List (String × α)} {k : String}
    (h : k ∈ keysOf d₁) : dictLookup (d₁ ++ d₂) k = dictLookup d₁ k := by
  induction d₁ with
  | nil => simp [keysOf] at h
  | cons kv rest ih =>
    obtain ⟨k', v'⟩ := kv
    by_cases hk : k' = k
    · simp [dictLookup, hk]
    · have : k ∈ keysOf rest := by
        simp [keysOf] at h
        rcases h with h | h
        · exact absurd h.symm hk
        · simpa [keysOf]
      simp [dictLookup, hk, ih this]

theorem dictLookup_append_right {d₁ d₂ : List (String × α)} {k : String}
    (h : k ∉ keysOf d₁) : dictLookup (d₁ ++ d₂) k = dictLookup d₂ k := by
  induction d₁ with
  | nil => simp
  | cons kv rest ih =>
    obtain ⟨k', v'⟩ := kv
    have hk : k' ≠ k := fun h' => h (by simp [keysOf, h'])
    have hr : k ∉ keysOf rest := fun h' => h (by simp [keysOf] at h' ⊢; right; exact h')
    simp [dictLookup, hk, ih hr]

theorem keysOf_append {d₁ d₂ : List (String × α)} :
    keysOf (d₁ ++ d₂) = keysOf d₁ ++ keysOf d₂ := by
  simp [keysOf]

theorem keysOf_dictAppendAt {d : List (String × List String)} {k : String}
    {x : List String} : keysOf (dictAppendAt d k x) = keysOf d := by
  induction d with
  | nil => rfl
  | cons kv rest ih =>
    obtain ⟨k', v'⟩ := kv
    by_cases hk : k' = k
    · simp [dictAppendAt, hk, keysOf]
    · simp only [dictAppendAt, if_neg hk, keysOf, List.map_cons] at ih ⊢
      rw [ih]

theorem dictAppendAt_eq_map {d : List (String × List String)} {k : String}
    {x : List String} (h : (keysOf d).Nodup) :
    dictAppendAt d k x =
      d.map (fun kf => if kf.1 = k then (kf.1, kf.2 ++ x) else kf) := by
  induction d with
  | nil => rfl
  | cons kv rest ih =>
    obtain ⟨k', v'⟩ := kv
    simp only [keysOf, List.map_cons, List.nodup_cons] at h
    by_cases hk : k' = k
    · subst hk
      have : rest.map (fun kf => if kf.1 = k' then (kf.1, kf.2 ++ x) else kf) = rest := by
        apply List.map_congr_left ?_ |>.trans rest.map_id
        intro kf hkf
        have : kf.1 ≠ k' := by
          intro h'
          exact h.1 (h' ▸ List.mem_map_of_mem Prod.fst hkf)
        simp [this]
      simp [dictAppendAt, this]
    · simp [dictAppendAt, hk, ih h.2]

theorem dictAppendAt_fresh {d : List (String × List String)} {k : String}
    {x : List String} (h : k ∉ keysOf d) : dictAppendAt d k x = d := by
  induction d with
  | nil => rfl
  | cons kv rest ih =>
    obtain ⟨k', v'⟩ := kv
    have hk : k' ≠ k := fun h' => h (by simp [keysOf, h'])
    have hr : k ∉ keysOf rest := fun h' => h (by simp [keysOf] at h' ⊢; right; exact h')
    simp [dictAppendAt, hk, ih hr]

theorem dictMapM_fold_eq {F : String → List String → Option (List String)}
    (l : List (String × List String)) (acc : List (String × List String))
    (hnd : (keysOf l).Nodup) (hdisj : ∀ k ∈ keysOf l, k ∉ keysOf acc) :
    optFold (fun acc kf =>
        match F kf.1 kf.2 with
        | none => none
        | some g => some (dictInsert acc kf.1 g)) acc l =
      (optMap (fun kf => (F kf.1 kf.2).map (fun g => (kf.1, g))) l).map
        (fun r => acc ++ r) := by
  induction l generalizing acc with
  | nil => simp [optFold, optMap]
  | cons kf t ih =>
    obtain ⟨k, f⟩ := kf
    simp only [keysOf, List.map_cons, List.nodup_cons] at hnd
    cases hF : F k f with
    | none => simp [optFold, optMap, hF]
    | some g =>
      have hfresh : k ∉ keysOf acc := hdisj k (by simp [keysOf])
      have hstep : dictInsert acc k g = acc ++ [(k, g)] := dictInsert_fresh hfresh
      simp only [optFold, hF, hstep]
      rw [ih (acc ++ [(k, g)]) hnd.2 ?_]
      · cases hrest : optMap (fun kf => (F kf.1 kf.2).map (fun g => (kf.1, g))) t with
        | none => simp [optMap, hF, hrest]
        | some r => simp [optMap, hF, hrest]
      · intro k' hk'
        rw [keysOf_append]
        intro hmem
        rcases List.mem_append.1 hmem with hm | hm
        · exact hdisj k' (by simp [keysOf]; right; exact (by simpa [keysOf] using hk')) hm
        · simp [keysOf] at hm
          subst hm
          exact hnd.1 (by simpa [keysOf] using hk')

theorem dictMapM_eq_optMap {F : String → List String → Option (List String)}
    {l : List (String × List String)} (h : (keysOf l).Nodup) :
    dictMapM F l =
      optMap (fun kf => (F kf.1 kf.2).map (fun g => (kf.1, g))) l := by
  unfold dictMapM
  rw [dictMapM_fold_eq l [] h (by intro k _ hk; simp [keysOf] at hk)]
  cases optMap (fun kf => (F kf.1 kf.2).map (fun g => (kf.1, g))) l <;> simp

theorem optMap_some_forall {f : α → Option β} {l : List α} {r : List β}
    (h : optMap f l = some r) : ∀ a ∈ l, ∃ b, f a = some b := by
  induction l generalizing r with
  | nil => intro a ha; cases ha
  | cons x t ih =>
    rcases optMap_cons_eq_some.1 h with ⟨b, r', hb, hr, rfl⟩
    intro a ha
    rcases List.mem_cons.1 ha with rfl | hm
    · exact ⟨b, hb⟩
    · exact ih hr a hm

theorem optMap_pair_keys {F : String × List String → Option (List String)}
    {l r : List (String × List String)}
    (h : optMap (fun kf => (F kf).map (fun g => (kf.1, g))) l = some r) :
    keysOf r = keysOf l := by
  induction l generalizing r with
  | nil => simp [optMap] at h; simp [← h, keysOf]
  | cons kf t ih =>
    rcases optMap_cons_eq_some.1 h with ⟨b, r', hb, hr, rfl⟩
    rcases Option.map_eq_some'.1 hb with ⟨g, _, rfl⟩
    simp [keysOf] at ih ⊢
    exact ih hr

theorem optMap_pair_lookup {F : String × List String → Option (List String)}
    {l r : List (String × List String)}
    (h : optMap (fun kf => (F kf).map (fun g => (kf.1, g))) l = some r)
    {k : String} {f : List String} (hk : dictLookup l k = some f) :
    ∃ g, F (k, f) = some g ∧ dictLookup r k = some g := by
  induction l generalizing r with
  | nil => simp [dictLookup] at hk
  | cons kf t ih =>
    obtain ⟨k', f'⟩ := kf
    rcases optMap_cons_eq_some.1 h with ⟨b, r', hb, hr, rfl⟩
    rcases Option.map_eq_some'.1 hb with ⟨g, hg, rfl⟩
    by_cases hkk : k' = k
    · subst hkk
      simp only [dictLookup, if_pos rfl] at hk
      cases hk
      exact ⟨g, hg, by simp [dictLookup]⟩
    · simp only [dictLookup, if_neg hkk] at hk
      rcases ih hr hk with ⟨g', hg', hl⟩
      exact ⟨g', hg', by simp [dictLookup, hkk, hl]⟩

/-! ## Infrastructure lemmas: split and join -/

theorem splitCharList_ne_nil {c : Char} {l : List Char} : splitCharList c l ≠ [] := by
  cases l with
  | nil => simp [splitCharList]
  | cons a rest =>
    simp only [splitCharList]
    cases h : splitCharList c rest with
    | nil => simp
    | cons h' t' =>
      by_cases hc : a = c <;> simp [hc]

theorem mem_splitCharList_not_contains {c : Char} {l : List Char} {x : List Char}
    (h : x ∈ splitCharList c l) : c ∉ x := by
  induction l generalizing x with
  | nil =>
    simp [splitCharList] at h
    simp [h]
  | cons a rest ih =>
    simp only [splitCharList] at h
    cases hs : splitCharList c rest with
    | nil => exact absurd hs splitCharList_ne_nil
    | cons h' t' =>
      rw [hs] at h
      by_cases hc : a = c
      · simp only [if_pos hc] at h
        rcases List.mem_cons.1 h with rfl | hm
        · simp
        · exact ih (hs ▸ hm)
      · simp only [if_neg hc] at h
        rcases List.mem_cons.1 h with rfl | hm
        · intro hmem
          rcases List.mem_cons.1 hmem with rfl | hmem'
          · exact hc rfl
          · exact ih (hs ▸ List.mem_cons_self h' t') hmem'
        · exact ih (hs ▸ List.mem_cons_of_mem h' hm)

theorem splitCharList_not_contains {c : Char} {x : List Char} (hx : c ∉ x) :
    splitCharList c x = [x] := by
  induction x with
  | nil => rfl
  | cons a t ih =>
    have ha : a ≠ c := fun h => hx (h ▸ List.mem_cons_self a t)
    have ht : c ∉ t := fun h => hx (List.mem_cons_of_mem a h)
    simp only [splitCharList, ih ht, if_neg ha]

theorem splitCharList_append_cons {c : Char} {x r : List Char} (hx : c ∉ x) :
    splitCharList c (x ++ c :: r) = x :: splitCharList c r := by
  induction x with
  | nil =>
    simp only [List.nil_append, splitCharList]
    cases hs : splitCharList c r with
    | nil => exact absurd hs splitCharList_ne_nil
    | cons h' t' => simp
  | cons a t ih =>
    have ha : a ≠ c := fun h => hx (h ▸ List.mem_cons_self a t)
    have ht : c ∉ t := fun h => hx (List.mem_cons_of_mem a h)
    rw [List.cons_append]
    simp only [splitCharList, List.append_eq]
    rw [ih ht]
    simp [ha]

theorem splitCharList_joinSepList {c : Char} {L : List (List Char)}
    (hne : L ≠ []) (h : ∀ x ∈ L, c ∉ x) :
    splitCharList c (joinSepList c L) = L := by
  induction L with
  | nil => exact absurd rfl hne
  | cons x t ih =>
    cases t with
    | nil =>
      simp only [joinSepList]
      exact splitCharList_not_contains (h x (List.mem_cons_self x []))
    | cons y t' =>
      have hx : c ∉ x := h x (List.mem_cons_self x _)
      simp only [joinSepList, splitCharList_append_cons hx]
      rw [ih (by simp) (fun z hz => h z (List.mem_cons_of_mem x hz))]

theorem joinSepList_splitCharList {c : Char} {l : List Char} :
    joinSepList c (splitCharList c l) = l := by
  induction l with
  | nil => rfl
  | cons a rest ih =>
    simp only [splitCharList]
    cases hs : splitCharList c rest with
    | nil => exact absurd hs splitCharList_ne_nil
    | cons h' t' =>
      rw [hs] at ih
      by_cases hc : a = c
      · subst hc
        simp only [if_pos rfl, joinSepList]
        rw [ih]
        simp
      · simp only [if_neg hc]
        cases t' with
        | nil =>
          simp only [joinSepList] at ih ⊢
          rw [ih]
        | cons y t'' =>
          simp only [joinSepList] at ih ⊢
          rw [List.cons_append, ih]

theorem joinCh_splitOnCh {c : Char} {s : String} : joinCh c (splitOnCh c s) = s := by
  show (⟨joinSepList c (((splitCharList c s.data).map (fun l => (⟨l⟩ : String))).map String.data)⟩ : String) = s
  rw [List.map_map]
  have : ((fun l => (⟨l⟩ : String).data) : List Char → List Char) = id := by
    funext l; rfl
  rw [show (String.data ∘ fun l => (⟨l⟩ : String)) = id from funext (fun l => rfl)]
  rw [List.map_id, joinSepList_splitCharList]

theorem splitOnCh_joinCh {c : Char} {L : List String} (hne : L ≠ [])
    (h : ∀ x ∈ L, c ∉ x.data) : splitOnCh c (joinCh c L) = L := by
  show ((splitCharList c (joinSepList c (L.map String.data))).map (fun l => (⟨l⟩ : String))) = L
  rw [splitCharList_joinSepList (by simpa using hne) ?side]
  case side =>
    intro x hx
    rcases List.mem_map.1 hx with ⟨s, hs, rfl⟩
    exact h s hs
  rw [List.map_map]
  rw [show ((fun l => (⟨l⟩ : String)) ∘ String.data) = id from funext (fun s => rfl)]
  exact List.map_id L

theorem mem_splitOnCh_not_contains {c : Char} {s x : String}
    (h : x ∈ splitOnCh c s) : c ∉ x.data := by
  rcases List.mem_map.1 h with ⟨l, hl, rfl⟩
  exact mem_splitCharList_not_contains hl

theorem length_splitOnCh_joinCh {c : Char} {L : List String} (hne : L ≠ [])
    (h : ∀ x ∈ L, c ∉ x.data) : (splitOnCh c (joinCh c L)).length = L.length := by
  rw [splitOnCh_joinCh hne h]

/-! ## Infrastructure lemmas: pyIndex -/

theorem pyIndex_some_mem {x : String} {l : List String} {i : Nat}
    (h : pyIndex x l = some i) : x ∈ l := by
  induction l generalizing i with
  | nil => simp [pyIndex] at h
  | cons a t ih =>
    by_cases ha : a = x
    · simp [ha]
    · simp only [pyIndex, if_neg ha] at h
      rcases Option.map_eq_some'.1 h with ⟨j, hj, _⟩
      exact List.mem_cons_of_mem a (ih hj)

/-! ## Infrastructure lemmas: stripFields -/

theorem setIdx_eq_some {l r : List α} {i : Nat} {a : α} :
    setIdx l i a = some r ↔ i < l.length ∧ r = l.set i a := by
  unfold setIdx
  by_cases h : i < l.length <;> simp [h, eq_comm]

theorem stripFields_some_unfold {subs f g : List String}
    (h : stripFields subs f = some g) :
    ∃ fmt idxs newTail,
      8 < f.length ∧
      f.get? 8 = some fmt ∧
      optMap (fun s => pyIndex s (splitOnCh ':' fmt)) subs = some idxs ∧
      optMap (fun x => (optMap (fun i => (splitOnCh ':' x).get? i) idxs).map (joinCh ':'))
        (f.drop 9) = some newTail ∧
      g = ((((f.set 2 ".").set 6 ".").set 7 ".").set 8 (joinCh ':' subs)).take 9
            ++ newTail := by
  simp only [stripFields, bind, Option.bind_eq_some, Option.pure_def,
    Option.some.injEq] at h
  obtain ⟨f₁, h₁, f₂, h₂, f₃, h₃, fmt, hfmt, idxs, hidx, f₄, h₄, newTail, hnt, hg⟩ := h
  rw [setIdx_eq_some] at h₁ h₂ h₃ h₄
  obtain ⟨hl₁, rfl⟩ := h₁
  obtain ⟨hl₂, rfl⟩ := h₂
  obtain ⟨hl₃, rfl⟩ := h₃
  obtain ⟨hl₄, rfl⟩ := h₄
  simp only [List.length_set] at hl₄
  have hfmt' : f.get? 8 = some fmt := by
    rw [← hfmt]
    simp [List.get?_eq_getElem?, List.getElem?_set_ne (by omega : (2:Nat) ≠ 8),
      List.getElem?_set_ne (by omega : (6:Nat) ≠ 8),
      List.getElem?_set_ne (by omega : (7:Nat) ≠ 8)]
  have hdrop :
      ((((f.set 2 ".").set 6 ".").set 7 ".").set 8 (joinCh ':' subs)).drop 9 =
        f.drop 9 := by
    simp [List.drop_set]
  refine ⟨fmt, idxs, newTail, hl₄, hfmt', hidx, ?_, ?_⟩
  · rw [← hdrop]; exact hnt
  · exact hg.symm

theorem stripFields_length {subs f g : List String}
    (h : stripFields subs f = some g) : g.length = f.length ∧ 8 < f.length := by
  obtain ⟨fmt, idxs, newTail, hlen, _, _, hnt, hg⟩ := stripFields_some_unfold h
  have hnl : newTail.length = (f.drop 9).length := by
    have := optMap_length hnt; simpa using this
  subst hg
  constructor
  · simp only [List.length_append, List.length_take, List.length_set, hnl,
      List.length_drop]
    omega
  · exact hlen

theorem stripFields_get8 {subs f g : List String}
    (h : stripFields subs f = some g) : g.get? 8 = some (joinCh ':' subs) := by
  obtain ⟨fmt, idxs, newTail, hlen, _, _, hnt, hg⟩ := stripFields_some_unfold h
  subst hg
  have h9 : (8:Nat) <
      (((((f.set 2 ".").set 6 ".").set 7 ".").set 8 (joinCh ':' subs)).take 9).length := by
    simp only [List.length_take, List.length_set]
    omega
  rw [List.get?_eq_getElem?, List.getElem?_append]
  rw [if_pos (by simpa using h9)]
  rw [List.getElem?_take]
  simp only [if_pos (by omega : (8:Nat) < 9)]
  rw [List.getElem?_set_self (by simp [List.length_set]; omega)]

theorem stripFields_subs_clean {subs f g : List String}
    (h : stripFields subs f = some g) : ∀ s ∈ subs, ':' ∉ s.data := by
  obtain ⟨fmt, idxs, newTail, _, _, hidx, _, _⟩ := stripFields_some_unfold h
  intro s hs
  obtain ⟨i, hi⟩ := optMap_some_forall hidx s hs
  exact mem_splitOnCh_not_contains (pyIndex_some_mem hi)

theorem stripFields_drop9 {subs f g : List String}
    (h : stripFields subs f = some g) :
    ∃ idxs fmt,
      f.get? 8 = some fmt ∧
      optMap (fun s => pyIndex s (splitOnCh ':' fmt)) subs = some idxs ∧
      optMap (fun x => (optMap (fun i => (splitOnCh ':' x).get? i) idxs).map (joinCh ':'))
        (f.drop 9) = some (g.drop 9) := by
  obtain ⟨fmt, idxs, newTail, hlen, hfmt, hidx, hnt, hg⟩ := stripFields_some_unfold h
  refine ⟨idxs, fmt, hfmt, hidx, ?_⟩
  subst hg
  set L := (((((f.set 2 ".").set 6 ".").set 7 ".").set 8 (joinCh ':' subs)).take 9 :
    List String) with hLdef
  have hlt : L.length = 9 := by
    rw [hLdef]
    simp only [List.length_take, List.length_set]
    omega
  have : (L ++ newTail).drop 9 = newTail := by
    rw [← hlt, List.drop_left]
  rw [this]
  exact hnt

/-! ## Infrastructure lemmas: the strip transform at store level -/

theorem optMap_pair_mem {F : String × List String → Option (List String)}
    {l r : List (String × List String)}
    (h : optMap (fun kf => (F kf).map (fun g => (kf.1, g))) l = some r) :
    ∀ kg ∈ r, ∃ f, (kg.1, f) ∈ l ∧ F (kg.1, f) = some kg.2 := by
  induction l generalizing r with
  | nil =>
    simp [optMap] at h
    subst h
    intro kg hkg
    cases hkg
  | cons kf t ih =>
    rcases optMap_cons_eq_some.1 h with ⟨b, r', hb, hr, rfl⟩
    rcases Option.map_eq_some'.1 hb with ⟨g, hg, rfl⟩
    intro kg hkg
    rcases List.mem_cons.1 hkg with rfl | hm
    · exact ⟨kf.2, List.mem_cons_self _ _, hg⟩
    · rcases ih hr kg hm with ⟨f, hf, hFf⟩
      exact ⟨f, List.mem_cons_of_mem _ hf, hFf⟩

theorem strip_some_unfold {v w : VCFResult} {subs : Option (List String)}
    (h : v.strip subs = some w) :
    w.meta = [] ∧ w.head = v.head ∧
      dictMapM (fun _ f => stripFields (subsOf subs) f) v.data = some w.data := by
  unfold VCFResult.strip at h
  rcases Option.map_eq_some'.1 h with ⟨d, hd, rfl⟩
  exact ⟨rfl, rfl, by rw [hd]⟩

theorem strip_data_optMap {v w : VCFResult} {subs : Option (List String)}
    (hnd : (keysOf v.data).Nodup) (h : v.strip subs = some w) :
    optMap (fun kf => (stripFields (subsOf subs) kf.2).map (fun g => (kf.1, g)))
      v.data = some w.data := by
  have := (strip_some_unfold h).2.2
  rw [dictMapM_eq_optMap hnd] at this
  exact this

theorem strip_keys {v w : VCFResult} {subs : Option (List String)}
    (hnd : (keysOf v.data).Nodup) (h : v.strip subs = some w) :
    keysOf w.data = keysOf v.data :=
  optMap_pair_keys (strip_data_optMap hnd h)

theorem strip_lookup {v w : VCFResult} {subs : Option (List String)}
    (hnd : (keysOf v.data).Nodup) (h : v.strip subs = some w)
    {k : String} {f : List String} (hk : dictLookup v.data k = some f) :
    ∃ g, stripFields (subsOf subs) f = some g ∧ dictLookup w.data k = some g :=
  optMap_pair_lookup (strip_data_optMap hnd h) hk

theorem strip_record_mem {v w : VCFResult} {subs : Option (List String)}
    (hnd : (keysOf v.data).Nodup) (h : v.strip subs = some w) :
    ∀ kg ∈ w.data, ∃ f, (kg.1, f) ∈ v.data ∧
      stripFields (subsOf subs) f = some kg.2 :=
  optMap_pair_mem (strip_data_optMap hnd h)

/-! ## Infrastructure lemmas: the two merge loops -/

theorem dictMem_eq_false_iff {d : List (String × α)} {k : String} :
    dictMem k d = false ↔ k ∉ keysOf d := by
  rw [← Bool.not_eq_true, not_iff_not]
  exact dictMem_iff

theorem dictMem_eq_of_keysOf_eq {d₁ d₂ : List (String × α)} {k : String}
    (h : keysOf d₁ = keysOf d₂) : dictMem k d₁ = dictMem k d₂ := by
  rw [Bool.eq_iff_iff, dictMem_iff, dictMem_iff, h]

theorem foldl_dictInsert_eq {G : String × List String → List String} :
    ∀ (l acc : List (String × List String)), (keysOf l).Nodup →
    (∀ k ∈ keysOf l, k ∉ keysOf acc) →
    l.foldl (fun acc kf => dictInsert acc kf.1 (G kf)) acc =
      acc ++ l.map (fun kf => (kf.1, G kf)) := by
  intro l
  induction l with
  | nil => intro acc _ _; simp
  | cons kf t ih =>
    intro acc hnd hdisj
    obtain ⟨k, f⟩ := kf
    simp only [keysOf, List.map_cons, List.nodup_cons] at hnd
    have hfresh : k ∉ keysOf acc := hdisj k (by simp [keysOf])
    simp only [List.foldl_cons]
    rw [dictInsert_fresh hfresh]
    rw [ih (acc ++ [(k, G (k, f))]) hnd.2 ?_]
    · simp
    · intro k' hk'
      rw [keysOf_append]
      intro hmem
      rcases List.mem_append.1 hmem with hm | hm
      · exact hdisj k' (by simp [keysOf]; right; exact (by simpa [keysOf] using hk')) hm
      · simp [keysOf] at hm
        subst hm
        exact hnd.1 (by simpa [keysOf] using hk')

theorem dictLookup_append_singleton_ne {d : List (String × α)} {k x : String}
    {v : α} (h : x ≠ k) : dictLookup (d ++ [(k, v)]) x = dictLookup d x := by
  have hkx : ¬(k = x) := fun hh => h hh.symm
  induction d with
  | nil => simp [dictLookup, hkx]
  | cons kv rest ih =>
    obtain ⟨k', v'⟩ := kv
    by_cases hk : k' = x <;> simp [dictLookup, hk, ih]

theorem mem_keysOf_of_mem {d : List (String × α)} {kf : String × α}
    (h : kf ∈ d) : kf.1 ∈ keysOf d := List.mem_map_of_mem Prod.fst h

theorem foldl_merge2_eq {m : Nat} {missing : String} :
    ∀ (bs acc : List (String × List String)),
    (keysOf acc).Nodup → (keysOf bs).Nodup →
    bs.foldl (fun acc kf =>
        if dictMem kf.1 acc then dictAppendAt acc kf.1 (kf.2.drop 9)
        else dictInsert acc kf.1
          (kf.2.take 9 ++ List.replicate m missing ++ kf.2.drop 9)) acc =
      acc.map (fun kf =>
        match dictLookup bs kf.1 with
        | some fB => (kf.1, kf.2 ++ fB.drop 9)
        | none => kf)
      ++ (bs.filter (fun kf => !(dictMem kf.1 acc))).map
          (fun kf => (kf.1, kf.2.take 9 ++ List.replicate m missing ++ kf.2.drop 9)) := by
  intro bs
  induction bs with
  | nil =>
    intro acc _ _
    simp [dictLookup]
  | cons kf t ih =>
    intro acc hacc hbs
    obtain ⟨k, f⟩ := kf
    simp only [keysOf, List.map_cons, List.nodup_cons] at hbs
    have hkt : k ∉ keysOf t := by simpa [keysOf] using hbs.1
    simp only [List.foldl_cons]
    by_cases hmem : dictMem k acc = true
    · rw [if_pos hmem]
      rw [ih (dictAppendAt acc k (f.drop 9))
        (by rw [keysOf_dictAppendAt]; exact hacc) hbs.2]
      have hkeys : keysOf (dictAppendAt acc k (f.drop 9)) = keysOf acc :=
        keysOf_dictAppendAt
      have hfilt : t.filter (fun kf => !(dictMem kf.1 (dictAppendAt acc k (f.drop 9)))) =
          t.filter (fun kf => !(dictMem kf.1 acc)) := by
        apply List.filter_congr
        intro x _
        rw [dictMem_eq_of_keysOf_eq hkeys]
      have hmap : (dictAppendAt acc k (f.drop 9)).map
            (fun kf => match dictLookup t kf.1 with
              | some fB => (kf.1, kf.2 ++ fB.drop 9)
              | none => kf) =
          acc.map (fun kf => match dictLookup ((k, f) :: t) kf.1 with
              | some fB => (kf.1, kf.2 ++ fB.drop 9)
              | none => kf) := by
        rw [dictAppendAt_eq_map hacc, List.map_map]
        apply List.map_congr_left
        intro kf _
        by_cases hk : kf.1 = k
        · have hlt : dictLookup t kf.1 = none := dictLookup_eq_none_iff.2 (hk ▸ hkt)
          have hlc : dictLookup ((k, f) :: t) kf.1 = some f := by
            simp [dictLookup, hk.symm]
          simp only [Function.comp_apply, if_pos hk, hlt, hlc]
        · have hkk : ¬(k = kf.1) := fun hh => hk hh.symm
          have hlc : dictLookup ((k, f) :: t) kf.1 = dictLookup t kf.1 := by
            simp [dictLookup, hkk]
          simp only [Function.comp_apply, if_neg hk, hlc]
      rw [hmap, hfilt]
      have hcf : ((k, f) :: t).filter (fun kf => !(dictMem kf.1 acc)) =
          t.filter (fun kf => !(dictMem kf.1 acc)) := by
        simp [List.filter_cons, hmem]
      rw [hcf]
    · rw [if_neg hmem]
      have hfresh : k ∉ keysOf acc := by
        rw [← dictMem_iff]
        exact hmem
      rw [dictInsert_fresh hfresh]
      have hnodup2 : (keysOf (acc ++
          [(k, f.take 9 ++ List.replicate m missing ++ f.drop 9)])).Nodup := by
        rw [keysOf_append, List.nodup_append]
        refine ⟨hacc, List.nodup_singleton k, ?_⟩
        intro x hx hxk
        simp [keysOf] at hxk
        exact hfresh (hxk ▸ hx)
      rw [ih (acc ++ [(k, f.take 9 ++ List.replicate m missing ++ f.drop 9)])
        hnodup2 hbs.2]
      rw [List.map_append]
      have h1 : ([(k, f.take 9 ++ List.replicate m missing ++ f.drop 9)]).map
            (fun kf => match dictLookup t kf.1 with
              | some fB => (kf.1, kf.2 ++ fB.drop 9)
              | none => kf) =
          [(k, f.take 9 ++ List.replicate m missing ++ f.drop 9)] := by
        have hlt : dictLookup t k = none := dictLookup_eq_none_iff.2 hkt
        simp [hlt]
      rw [h1]
      have hmapacc : acc.map
            (fun kf => match dictLookup t kf.1 with
              | some fB => (kf.1, kf.2 ++ fB.drop 9)
              | none => kf) =
          acc.map (fun kf => match dictLookup ((k, f) :: t) kf.1 with
              | some fB => (kf.1, kf.2 ++ fB.drop 9)
              | none => kf) := by
        apply List.map_congr_left
        intro kf hkf
        have hk : kf.1 ≠ k := fun h => hfresh (h ▸ mem_keysOf_of_mem hkf)
        have hkk : ¬(k = kf.1) := fun hh => hk hh.symm
        have hlc : dictLookup ((k, f) :: t) kf.1 = dictLookup t kf.1 := by
          simp [dictLookup, hkk]
        rw [hlc]
      rw [hmapacc]
      have hfilt : t.filter (fun kf => !(dictMem kf.1 (acc ++
            [(k, f.take 9 ++ List.replicate m missing ++ f.drop 9)]))) =
          t.filter (fun kf => !(dictMem kf.1 acc)) := by
        apply List.filter_congr
        intro x hx
        have hxk : x.1 ≠ k := fun h => hkt (h ▸ mem_keysOf_of_mem hx)
        have hl : dictLookup (acc ++
            [(k, f.take 9 ++ List.replicate m missing ++ f.drop 9)]) x.1 =
            dictLookup acc x.1 := dictLookup_append_singleton_ne hxk
        unfold dictMem
        rw [hl]
      rw [hfilt]
      have hcf : ((k, f) :: t).filter (fun kf => !(dictMem kf.1 acc)) =
          (k, f) :: t.filter (fun kf => !(dictMem kf.1 acc)) := by
        have hdm : dictMem k acc = false := by
          rw [dictMem_eq_false_iff]
          exact hfresh
        simp [List.filter_cons, hdm]
      rw [hcf]
      simp [List.append_assoc]

/-- The missing-genotype template actually produced inside `merge`: after
    the implicit strip every FORMAT cell is `joinCh ':' (subsOf subs)`,
    whose cardinality is `(subsOf subs).length`, so the template read off
    the second store's first record is `./.` followed by that many minus
    one `:.` repetitions. -/
def missingTemplate (subs : Option (List String)) : String :=
  "./." ++ strTimes ":." ((subsOf subs).length - 1)

theorem keysOf_keyMap {φ : String × List String → List String}
    {l : List (String × List String)} :
    keysOf (l.map (fun kf => (kf.1, φ kf))) = keysOf l := by
  simp [keysOf, List.map_map]

theorem dictLookup_keyMap_some {φ : String × List String → List String}
    {l : List (String × List String)} {k : String} {f : List String}
    (h : dictLookup l k = some f) :
    dictLookup (l.map (fun kf => (kf.1, φ kf))) k = some (φ (k, f)) := by
  induction l with
  | nil => simp [dictLookup] at h
  | cons kv rest ih =>
    obtain ⟨k', v'⟩ := kv
    by_cases hk : k' = k
    · subst hk
      simp only [dictLookup, if_pos rfl] at h
      cases h
      simp [dictLookup]
    · simp only [dictLookup, if_neg hk] at h
      simp [dictLookup, hk, ih h]

theorem merge_some_unfold {A B C : VCFResult} {subs : Option (List String)}
    (hm : A.merge B subs = some C) :
    ∃ vcf1 vcf2 fk fmt8,
      A.strip subs = some vcf1 ∧ B.strip subs = some vcf2 ∧
      vcf2.data.head? = some fk ∧ fk.2.get? 8 = some fmt8 ∧
      C = ⟨[], vcf1.head ++ vcf2.head.drop 9,
        vcf2.data.foldl (fun acc kf =>
          if dictMem kf.1 acc then dictAppendAt acc kf.1 (kf.2.drop 9)
          else dictInsert acc kf.1
            (kf.2.take 9 ++
              List.replicate vcf1.shape.1
                ("./." ++ strTimes ":." ((splitOnCh ':' fmt8).length - 1)) ++
              kf.2.drop 9))
          (vcf1.data.foldl (fun acc kf =>
            if dictMem kf.1 vcf2.data then dictInsert acc kf.1 kf.2
            else dictInsert acc kf.1
              (kf.2 ++ List.replicate vcf2.shape.1
                ("./." ++ strTimes ":." ((splitOnCh ':' fmt8).length - 1)))) [])⟩ := by
  simp only [VCFResult.merge, bind, Option.bind_eq_some, Option.pure_def,
    Option.some.injEq] at hm
  obtain ⟨vcf1, h1, vcf2, h2, fk, hfk, fmt8, hfmt8, hC⟩ := hm
  exact ⟨vcf1, vcf2, fk, fmt8, h1, h2, hfk, hfmt8, hC.symm⟩

theorem subsOf_ne_nil {subs : Option (List String)} : subsOf subs ≠ [] := by
  cases subs <;> simp [subsOf]

theorem merge_data_master {A B C : VCFResult} {subs : Option (List String)}
    (hA : (keysOf A.data).Nodup) (hB : (keysOf B.data).Nodup)
    (hm : A.merge B subs = some C) :
    ∃ vcf1 vcf2, A.strip subs = some vcf1 ∧ B.strip subs = some vcf2 ∧
      C.meta = [] ∧ C.head = A.head ++ B.head.drop 9 ∧
      C.data =
        vcf1.data.map (fun kf =>
          match dictLookup vcf2.data kf.1 with
          | some fB => (kf.1, kf.2 ++ fB.drop 9)
          | none => (kf.1, kf.2 ++ List.replicate (B.head.drop 9).length
              (missingTemplate subs)))
        ++ (vcf2.data.filter (fun kf => !(dictMem kf.1 vcf1.data))).map
            (fun kf => (kf.1, kf.2.take 9 ++
              List.replicate (A.head.drop 9).length (missingTemplate subs) ++
              kf.2.drop 9)) := by
  obtain ⟨vcf1, vcf2, fk, fmt8, h1, h2, hfk, hfmt8, hC⟩ := merge_some_unfold hm
  have hfkmem : fk ∈ vcf2.data := by
    cases hd : vcf2.data with
    | nil => rw [hd] at hfk; simp at hfk
    | cons a t =>
      rw [hd] at hfk
      simp only [List.head?_cons, Option.some.injEq] at hfk
      rw [← hfk]
      exact List.mem_cons_self a t
  obtain ⟨f0, _, hsf⟩ := strip_record_mem hB h2 fk hfkmem
  have hfmtJ : fk.2.get? 8 = some (joinCh ':' (subsOf subs)) := stripFields_get8 hsf
  have hfmt8J : fmt8 = joinCh ':' (subsOf subs) := by
    rw [hfmt8] at hfmtJ
    exact Option.some.inj hfmtJ
  have hclean : ∀ s ∈ subsOf subs, ':' ∉ s.data := stripFields_subs_clean hsf
  have hsplit : splitOnCh ':' fmt8 = subsOf subs := by
    rw [hfmt8J]
    exact splitOnCh_joinCh subsOf_ne_nil hclean
  have hmiss : "./." ++ strTimes ":." ((splitOnCh ':' fmt8).length - 1) =
      missingTemplate subs := by
    rw [hsplit]
    rfl
  have hhead1 : vcf1.head = A.head := (strip_some_unfold h1).2.1
  have hhead2 : vcf2.head = B.head := (strip_some_unfold h2).2.1
  have hkeys1 : keysOf vcf1.data = keysOf A.data := strip_keys hA h1
  have hkeys2 : keysOf vcf2.data = keysOf B.data := strip_keys hB h2
  have hnd1 : (keysOf vcf1.data).Nodup := hkeys1 ▸ hA
  have hnd2 : (keysOf vcf2.data).Nodup := hkeys2 ▸ hB
  have hs1 : vcf1.shape.1 = (A.head.drop 9).length := by
    simp [VCFResult.shape, hhead1]
  have hs2 : vcf2.shape.1 = (B.head.drop 9).length := by
    simp [VCFResult.shape, hhead2]
  rw [hmiss, hs1, hs2] at hC
  subst hC
  refine ⟨vcf1, vcf2, h1, h2, rfl, by rw [hhead1, hhead2], ?_⟩
  have hfun : (fun (acc : List (String × List String)) (kf : String × List String) =>
      if dictMem kf.1 vcf2.data then dictInsert acc kf.1 kf.2
      else dictInsert acc kf.1
        (kf.2 ++ List.replicate (B.head.drop 9).length (missingTemplate subs))) =
      (fun (acc : List (String × List String)) (kf : String × List String) =>
        dictInsert acc kf.1
        (if dictMem kf.1 vcf2.data then kf.2
         else kf.2 ++ List.replicate (B.head.drop 9).length (missingTemplate subs))) := by
    funext acc kf
    by_cases h : dictMem kf.1 vcf2.data <;> simp [h]
  rw [hfun]
  rw [foldl_dictInsert_eq vcf1.data [] hnd1 (by intro k _ hk; simp [keysOf] at hk)]
  rw [List.nil_append]
  have hd1keys : keysOf (vcf1.data.map (fun kf =>
      (kf.1, if dictMem kf.1 vcf2.data then kf.2
             else kf.2 ++ List.replicate (B.head.drop 9).length
               (missingTemplate subs)))) = keysOf vcf1.data := keysOf_keyMap
  rw [foldl_merge2_eq vcf2.data _ (by rw [hd1keys]; exact hnd1) hnd2]
  dsimp only
  congr 1
  · rw [List.map_map]
    apply List.map_congr_left
    intro kf hkf
    simp only [Function.comp_apply]
    cases hlook : dictLookup vcf2.data kf.1 with
    | none =>
      have hdm : dictMem kf.1 vcf2.data = false := by
        unfold dictMem
        rw [hlook]
        rfl
      simp [hdm, hlook]
    | some fB =>
      have hdm : dictMem kf.1 vcf2.data = true := by
        unfold dictMem
        rw [hlook]
        rfl
      simp [hdm, hlook]
  · have : vcf2.data.filter (fun kf => !(dictMem kf.1
        (vcf1.data.map (fun kf =>
          (kf.1, if dictMem kf.1 vcf2.data then kf.2
                 else kf.2 ++ List.replicate (B.head.drop 9).length
                   (missingTemplate subs)))))) =
        vcf2.data.filter (fun kf => !(dictMem kf.1 vcf1.data)) := by
      apply List.filter_congr
      intro x _
      rw [dictMem_eq_of_keysOf_eq hd1keys]
    rw [this]

/-! ## Claim theorems: merge safety and the absent layout check -/

/-- C10: merging with an empty second operand always fails: `merge` reads
    the missing-genotype template's cardinality from the first record of
    the stripped second store (`next(iter(vcf2.data.items()))`), which
    raises `StopIteration` when that store has no records, before any
    result is produced — regardless of the first operand. -/
theorem merge_empty_second_operand (A B : VCFResult) (subs : Option (List String))
    (hB : B.data = []) : A.merge B subs = none := by
  have hBs : B.strip subs = some ⟨[], B.head, []⟩ := by
    unfold VCFResult.strip
    rw [hB]
    rfl
  unfold VCFResult.merge
  cases h1 : A.strip subs with
  | none => rfl
  | some vcf1 =>
    rw [hBs]
    rfl

/-- Witness for C10 at a concrete non-empty first store and empty second
    store. -/
theorem merge_empty_second_operand_witness :
    storeA.data ≠ [] ∧ storeEmpty.data = [] ∧
      storeA.merge storeEmpty none = none := by
  refine ⟨by decide, rfl, merge_empty_second_operand storeA storeEmpty none rfl⟩

/-- C5: the claim says `merge` raises `IncompatibleMerge` when the two
    stripped layouts differ in cardinality, detected once per call.  The
    code contains no such check and no such error: whenever both implicit
    strips succeed and the second stripped store is non-empty, `merge`
    returns a result unconditionally, and in fact the two stripped
    stores' FORMAT cells are all the identical string
    `joinCh ':' (subsOf subs)`, so the incompatibility the spec asks to
    detect cannot even arise on the code's own control path. -/
theorem merge_no_layout_check (A B : VCFResult) (subs : Option (List String))
    (vcf1 vcf2 : VCFResult)
    (hAnd : (keysOf A.data).Nodup) (hBnd : (keysOf B.data).Nodup)
    (h1 : A.strip subs = some vcf1) (h2 : B.strip subs = some vcf2)
    (hne : vcf2.data ≠ []) :
    (A.merge B subs).isSome = true ∧
    (∀ kf ∈ vcf1.data, kf.2.get? 8 = some (joinCh ':' (subsOf subs))) ∧
    (∀ kf ∈ vcf2.data, kf.2.get? 8 = some (joinCh ':' (subsOf subs))) := by
  have hfmt1 : ∀ kf ∈ vcf1.data, kf.2.get? 8 = some (joinCh ':' (subsOf subs)) := by
    intro kf hkf
    obtain ⟨f, _, hsf⟩ := strip_record_mem hAnd h1 kf hkf
    exact stripFields_get8 hsf
  have hfmt2 : ∀ kf ∈ vcf2.data, kf.2.get? 8 = some (joinCh ':' (subsOf subs)) := by
    intro kf hkf
    obtain ⟨f, _, hsf⟩ := strip_record_mem hBnd h2 kf hkf
    exact stripFields_get8 hsf
  refine ⟨?_, hfmt1, hfmt2⟩
  unfold VCFResult.merge
  rw [h1, h2]
  cases hd : vcf2.data with
  | nil => exact absurd hd hne
  | cons a t =>
    have ha : a.2.get? 8 = some (joinCh ':' (subsOf subs)) :=
      hfmt2 a (hd ▸ List.mem_cons_self a t)
    have ha' : a.2[8]? = some (joinCh ':' (subsOf subs)) := by
      rw [← List.get?_eq_getElem?]
      exact ha
    simp [hd, ha']

/-- Witness for C5's theorem at the concrete stores of the spec's merge
    scenario. -/
theorem merge_no_layout_check_witness :
    ((storeA.merge storeB none).isSome = true) ∧
    (∀ kf ∈ (⟨[], storeA.head,
        [("chr1:100:G:C", ["chr1", "100", ".", "G", "C", ".", ".", ".", "GT", "0/1"]),
         ("chr2:200:A:T", ["chr2", "200", ".", "A", "T", "50", ".", ".", "GT", "1/1"])]⟩
        : VCFResult).data,
      kf.2.get? 8 = some (joinCh ':' (subsOf none))) := by
  have h := merge_no_layout_check storeA storeB none
    ⟨[], storeA.head,
      [("chr1:100:G:C", ["chr1", "100", ".", "G", "C", ".", ".", ".", "GT", "0/1"]),
       ("chr2:200:A:T", ["chr2", "200", ".", "A", "T", "50", ".", ".", "GT", "1/1"])]⟩
    ⟨[], storeB.head,
      [("chr1:100:G:C", ["chr1", "100", ".", "G", "C", ".", ".", ".", "GT", "0/0"]),
       ("chr3:300:C:G", ["chr3", "300", ".", "C", "G", ".", ".", ".", "GT", "0/1"])]⟩
    (by decide) (by decide) (by decide) (by decide) (by decide)
  exact ⟨h.1, h.2.1⟩

theorem dictLookup_some_mem {d : List (String × α)} {k : String} {v : α}
    (h : dictLookup d k = some v) : (k, v) ∈ d := by
  induction d with
  | nil => simp [dictLookup] at h
  | cons kv rest ih =>
    obtain ⟨k', v'⟩ := kv
    by_cases hk : k' = k
    · subst hk
      simp only [dictLookup, if_pos rfl] at h
      cases h
      exact List.mem_cons_self _ _
    · simp only [dictLookup, if_neg hk] at h
      exact List.mem_cons_of_mem _ (ih h)

theorem keysOf_filter_dictMem {l : List (String × List String)}
    {d : List (String × List String)} :
    keysOf (l.filter (fun kf => !(dictMem kf.1 d))) =
      (keysOf l).filter (fun k => !(dictMem k d)) := by
  induction l with
  | nil => rfl
  | cons kv rest ih =>
    obtain ⟨k', v'⟩ := kv
    by_cases hp : (!(dictMem k' d)) = true
    · simp only [List.filter_cons, if_pos hp, keysOf, List.map_cons] at ih ⊢
      rw [ih]
    · simp only [List.filter_cons, if_neg hp, keysOf, List.map_cons] at ih ⊢
      rw [ih]

theorem dictLookup_filter_of_pred {p : String × List String → Bool}
    {l : List (String × List String)} {k : String} {v : List String}
    (h : dictLookup l k = some v) (hp : p (k, v) = true) :
    dictLookup (l.filter p) k = some v := by
  induction l with
  | nil => simp [dictLookup] at h
  | cons kv rest ih =>
    obtain ⟨k', v'⟩ := kv
    by_cases hk : k' = k
    · subst hk
      simp only [dictLookup, if_pos rfl] at h
      cases h
      rw [List.filter_cons, if_pos hp]
      simp [dictLookup]
    · simp only [dictLookup, if_neg hk] at h
      rw [List.filter_cons]
      by_cases hpk : p (k', v') = true
      · rw [if_pos hpk]
        simp [dictLookup, hk, ih h]
      · rw [if_neg hpk]
        exact ih h

/-- C1: for stores with the structural invariants (full-width records,
    unique keys) and at least one record each, whenever `merge` succeeds
    every merged record has exactly `9 + |A.samples| + |B.samples|`
    fields, every key of A or B appears exactly once, and the result's
    insertion order is all of A's keys (in A's order) followed by the
    keys exclusive to B (in B's order). -/
theorem merge_shape_keys (A B C : VCFResult) (subs : Option (List String))
    (hA9 : 9 ≤ A.head.length) (hB9 : 9 ≤ B.head.length)
    (hAlen : ∀ kf ∈ A.data, kf.2.length = A.head.length)
    (hBlen : ∀ kf ∈ B.data, kf.2.length = B.head.length)
    (hAnd : (keysOf A.data).Nodup) (hBnd : (keysOf B.data).Nodup)
    (_hAne : A.data ≠ []) (_hBne : B.data ≠ [])
    (hm : A.merge B subs = some C) :
    (∀ kf ∈ C.data, kf.2.length = 9 + A.samples.length + B.samples.length) ∧
    (∀ k, k ∈ keysOf A.data ∨ k ∈ keysOf B.data → (keysOf C.data).count k = 1) ∧
    keysOf C.data = keysOf A.data ++
      (keysOf B.data).filter (fun k => !(dictMem k A.data)) := by
  obtain ⟨vcf1, vcf2, h1, h2, _, _, hcd⟩ := merge_data_master hAnd hBnd hm
  have hlen1 : ∀ kf ∈ vcf1.data, kf.2.length = A.head.length := by
    intro kf hkf
    obtain ⟨f, hfmem, hsf⟩ := strip_record_mem hAnd h1 kf hkf
    rw [(stripFields_length hsf).1]
    exact hAlen (kf.1, f) hfmem
  have hlen2 : ∀ kf ∈ vcf2.data, kf.2.length = B.head.length := by
    intro kf hkf
    obtain ⟨f, hfmem, hsf⟩ := strip_record_mem hBnd h2 kf hkf
    rw [(stripFields_length hsf).1]
    exact hBlen (kf.1, f) hfmem
  have hkeys1 : keysOf vcf1.data = keysOf A.data := strip_keys hAnd h1
  have hkeys2 : keysOf vcf2.data = keysOf B.data := strip_keys hBnd h2
  have hpair : (fun (kf : String × List String) =>
      match dictLookup vcf2.data kf.1 with
      | some fB => (kf.1, kf.2 ++ fB.drop 9)
      | none => (kf.1, kf.2 ++ List.replicate (B.head.drop 9).length
          (missingTemplate subs))) =
      (fun (kf : String × List String) =>
        (kf.1, match dictLookup vcf2.data kf.1 with
        | some fB => kf.2 ++ fB.drop 9
        | none => kf.2 ++ List.replicate (B.head.drop 9).length
            (missingTemplate subs))) := by
    funext kf
    cases dictLookup vcf2.data kf.1 <;> rfl
  have hkeysC : keysOf C.data = keysOf A.data ++
      (keysOf B.data).filter (fun k => !(dictMem k A.data)) := by
    rw [hcd, keysOf_append]
    congr 1
    · rw [hpair, keysOf_keyMap, hkeys1]
    · rw [keysOf_keyMap, keysOf_filter_dictMem, hkeys2]
      apply List.filter_congr
      intro x _
      rw [dictMem_eq_of_keysOf_eq (hkeys1.trans rfl)]
  have hndC : (keysOf C.data).Nodup := by
    rw [hkeysC, List.nodup_append]
    refine ⟨hAnd, List.Nodup.filter _ hBnd, ?_⟩
    intro x hxA hxF
    have hpx := List.of_mem_filter hxF
    rw [Bool.not_eq_true'] at hpx
    exact (dictMem_eq_false_iff.1 hpx) hxA
  refine ⟨?_, ?_, hkeysC⟩
  · intro kf hkf
    rw [hcd] at hkf
    have hsampA : A.samples.length = A.head.length - 9 := by
      simp [VCFResult.samples]
    have hsampB : B.samples.length = B.head.length - 9 := by
      simp [VCFResult.samples]
    rcases List.mem_append.1 hkf with hmem | hmem
    · rcases List.mem_map.1 hmem with ⟨kf0, hkf0, heq⟩
      have hl0 : kf0.2.length = A.head.length := hlen1 kf0 hkf0
      subst heq
      cases hlook : dictLookup vcf2.data kf0.1 with
      | some fB =>
        have hfB : fB.length = B.head.length :=
          hlen2 (kf0.1, fB) (dictLookup_some_mem hlook)
        simp only [List.length_append, List.length_drop]
        omega
      | none =>
        simp only [List.length_append, List.length_replicate, List.length_drop]
        omega
    · rcases List.mem_map.1 hmem with ⟨kf0, hkf0, heq⟩
      have hl0 : kf0.2.length = B.head.length :=
        hlen2 kf0 (List.mem_of_mem_filter hkf0)
      subst heq
      simp only [List.length_append, List.length_replicate, List.length_take,
        List.length_drop]
      omega
  · intro k hk
    apply List.count_eq_one_of_mem hndC
    rw [hkeysC]
    rcases hk with hkA | hkB
    · exact List.mem_append_left _ hkA
    · by_cases hmemA : dictMem k A.data = true
      · exact List.mem_append_left _ (dictMem_iff.1 hmemA)
      · refine List.mem_append_right _ ?_
        rw [List.mem_filter]
        exact ⟨hkB, by simp [Bool.not_eq_true] at hmemA ⊢; exact hmemA⟩

/-- The merge of `storeA` and `storeB` (no extra subfields), computed
    from the embedding. -/
def mergedAB : VCFResult :=
  ⟨[], ["#CHROM", "POS", "ID", "REF", "ALT", "QUAL", "FILTER", "INFO", "FORMAT", "S1", "S2"],
   [("chr1:100:G:C", ["chr1", "100", ".", "G", "C", ".", ".", ".", "GT", "0/1", "0/0"]),
    ("chr2:200:A:T", ["chr2", "200", ".", "A", "T", "50", ".", ".", "GT", "1/1", "./."]),
    ("chr3:300:C:G", ["chr3", "300", ".", "C", "G", ".", ".", ".", "GT", "./.", "0/1"])]⟩

/-- Witness for C1 at the concrete stores `storeA` and `storeB`. -/
theorem merge_shape_keys_witness :
    storeA.merge storeB none = some mergedAB ∧
    (∀ kf ∈ mergedAB.data,
      kf.2.length = 9 + storeA.samples.length + storeB.samples.length) ∧
    (∀ k, k ∈ keysOf storeA.data ∨ k ∈ keysOf storeB.data →
      (keysOf mergedAB.data).count k = 1) ∧
    keysOf mergedAB.data = keysOf storeA.data ++
      (keysOf storeB.data).filter (fun k => !(dictMem k storeA.data)) := by
  have hm : storeA.merge storeB none = some mergedAB := by decide
  have h := merge_shape_keys storeA storeB mergedAB none (by decide) (by decide)
    (by decide) (by decide) (by decide) (by decide) (by decide) (by decide) hm
  exact ⟨hm, h.1, h.2.1, h.2.2⟩

/-- C3: whenever `merge` succeeds on stores with unique keys, a record
    key present only in the first store gets its stripped fields followed
    by one missing-genotype template per sample column of the second
    store, and a key present only in the second store gets the stripped
    record's first nine fixed fields, one template per sample column of
    the first store, then its own sample fields.  The template
    `missingTemplate subs` is `./.` followed by `k − 1` repetitions of
    `:.` where `k = (subsOf subs).length` is the FORMAT cardinality of
    every record of the stripped second store (their FORMAT cell is the
    colon-join of `subsOf subs`). -/
theorem merge_missing_template (A B C : VCFResult) (subs : Option (List String))
    (hAnd : (keysOf A.data).Nodup) (hBnd : (keysOf B.data).Nodup)
    (hm : A.merge B subs = some C) :
    (∀ k fA, dictLookup A.data k = some fA → dictLookup B.data k = none →
      ∃ fA', stripFields (subsOf subs) fA = some fA' ∧
        dictLookup C.data k =
          some (fA' ++ List.replicate B.samples.length (missingTemplate subs))) ∧
    (∀ k fB, dictLookup B.data k = some fB → dictLookup A.data k = none →
      ∃ fB', stripFields (subsOf subs) fB = some fB' ∧
        dictLookup C.data k =
          some (fB'.take 9 ++ List.replicate A.samples.length (missingTemplate subs)
            ++ fB'.drop 9)) := by
  obtain ⟨vcf1, vcf2, h1, h2, _, _, hcd⟩ := merge_data_master hAnd hBnd hm
  have hkeys1 : keysOf vcf1.data = keysOf A.data := strip_keys hAnd h1
  have hkeys2 : keysOf vcf2.data = keysOf B.data := strip_keys hBnd h2
  have hpair : (fun (kf : String × List String) =>
      match dictLookup vcf2.data kf.1 with
      | some fB => (kf.1, kf.2 ++ fB.drop 9)
      | none => (kf.1, kf.2 ++ List.replicate (B.head.drop 9).length
          (missingTemplate subs))) =
      (fun (kf : String × List String) =>
        (kf.1, match dictLookup vcf2.data kf.1 with
        | some fB => kf.2 ++ fB.drop 9
        | none => kf.2 ++ List.replicate (B.head.drop 9).length
            (missingTemplate subs))) := by
    funext kf
    cases dictLookup vcf2.data kf.1 <;> rfl
  constructor
  · intro k fA hlA hlB
    obtain ⟨fA', hsfA, hl1⟩ := strip_lookup hAnd h1 hlA
    have hl2 : dictLookup vcf2.data k = none := by
      rw [dictLookup_eq_none_iff, hkeys2]
      exact dictLookup_eq_none_iff.1 hlB
    refine ⟨fA', hsfA, ?_⟩
    rw [hcd]
    have hk1 : k ∈ keysOf vcf1.data := by
      rw [← dictMem_iff]
      unfold dictMem
      rw [hl1]
      rfl
    rw [hpair]
    rw [dictLookup_append_left (by rw [keysOf_keyMap]; exact hk1)]
    rw [dictLookup_keyMap_some hl1]
    simp only [hl2]
    simp [VCFResult.samples]
  · intro k fB hlB hlA
    obtain ⟨fB', hsfB, hl2⟩ := strip_lookup hBnd h2 hlB
    have hk1n : k ∉ keysOf vcf1.data := by
      rw [hkeys1]
      exact dictLookup_eq_none_iff.1 hlA
    refine ⟨fB', hsfB, ?_⟩
    rw [hcd]
    rw [hpair]
    rw [dictLookup_append_right (by rw [keysOf_keyMap]; exact hk1n)]
    have hpred : (fun kf => !(dictMem kf.1 vcf1.data)) (k, fB') = true := by
      simp only [Bool.not_eq_true']
      rw [dictMem_eq_false_iff]
      exact hk1n
    have hfl : dictLookup (vcf2.data.filter (fun kf => !(dictMem kf.1 vcf1.data))) k =
        some fB' := dictLookup_filter_of_pred hl2 hpred
    rw [dictLookup_keyMap_some hfl]
    simp [VCFResult.samples]

/-- Witness for C3 at the concrete stores: `chr2:200:A:T` is exclusive
    to `storeA` and receives one `./.` template on the B side;
    `chr3:300:C:G` is exclusive to `storeB` and receives one template
    between its fixed fields and its sample field. -/
theorem merge_missing_template_witness :
    storeA.merge storeB none = some mergedAB ∧
    (∃ fA', stripFields (subsOf none)
        ["chr2", "200", "rs9", "A", "T", "50", "PASS", "AC=1", "GT:AD", "1/1:0,7"] =
          some fA' ∧
      dictLookup mergedAB.data "chr2:200:A:T" =
        some (fA' ++ List.replicate storeB.samples.length (missingTemplate none))) ∧
    (∃ fB', stripFields (subsOf none)
        ["chr3", "300", ".", "C", "G", ".", ".", ".", "GT:AD", "0/1:3,4"] =
          some fB' ∧
      dictLookup mergedAB.data "chr3:300:C:G" =
        some (fB'.take 9 ++ List.replicate storeA.samples.length (missingTemplate none)
          ++ fB'.drop 9)) := by
  have hm : storeA.merge storeB none = some mergedAB := by decide
  have h := merge_missing_template storeA storeB mergedAB none
    (by decide) (by decide) hm
  exact ⟨hm,
    h.1 "chr2:200:A:T"
      ["chr2", "200", "rs9", "A", "T", "50", "PASS", "AC=1", "GT:AD", "1/1:0,7"]
      (by decide) (by decide),
    h.2 "chr3:300:C:G"
      ["chr3", "300", ".", "C", "G", ".", ".", ".", "GT:AD", "0/1:3,4"]
      (by decide) (by decide)⟩

/-! ## Claim theorems: remove_empty -/

theorem foldl_remove_empty_eq :
    ∀ (l acc : List (String × List String)), (keysOf l).Nodup →
    (∀ k ∈ keysOf l, k ∉ keysOf acc) →
    l.foldl (fun acc kf =>
        if recordEmpty kf.2 then acc else dictInsert acc kf.1 kf.2) acc =
      acc ++ l.filter (fun kf => !(recordEmpty kf.2)) := by
  intro l
  induction l with
  | nil => intro acc _ _; simp
  | cons kf t ih =>
    intro acc hnd hdisj
    obtain ⟨k, f⟩ := kf
    simp only [keysOf, List.map_cons, List.nodup_cons] at hnd
    have hsub : ∀ k' ∈ keysOf t, k' ∉ keysOf acc := by
      intro k' hk'
      apply hdisj k'
      simp only [keysOf, List.map_cons, List.mem_cons]
      right
      simpa [keysOf] using hk'
    simp only [List.foldl_cons]
    by_cases he : recordEmpty f = true
    · rw [if_pos he]
      rw [ih acc hnd.2 hsub]
      have hdrop : ((k, f) :: t).filter (fun kf => !(recordEmpty kf.2)) =
          t.filter (fun kf => !(recordEmpty kf.2)) := by
        simp [List.filter_cons, he]
      rw [hdrop]
    · rw [if_neg he]
      have hfresh : k ∉ keysOf acc := hdisj k (by simp [keysOf])
      rw [dictInsert_fresh hfresh]
      have hsub2 : ∀ k' ∈ keysOf t, k' ∉ keysOf (acc ++ [(k, f)]) := by
        intro k' hk'
        rw [keysOf_append]
        intro hmem
        rcases List.mem_append.1 hmem with hm | hm
        · exact hsub k' hk' hm
        · simp [keysOf] at hm
          subst hm
          exact hnd.1 (by simpa [keysOf] using hk')
      rw [ih (acc ++ [(k, f)]) hnd.2 hsub2]
      have hkeep : ((k, f) :: t).filter (fun kf => !(recordEmpty kf.2)) =
          (k, f) :: t.filter (fun kf => !(recordEmpty kf.2)) := by
        simp [List.filter_cons, he]
      rw [hkeep]
      simp

/-- C9 (amended): `remove_empty` keeps exactly the records for which
    some sample cell's genotype subfield does not contain the missing
    token `.` anywhere (the code tests `'.' in gt`, a substring test),
    blanks the metadata, and keeps the header.  Records whose every
    sample genotype merely contains a `.` — including partial calls such
    as `./1` — are removed. -/
theorem remove_empty_spec (v : VCFResult) (hnd : (keysOf v.data).Nodup) :
    (v.remove_empty).head = v.head ∧ (v.remove_empty).meta = [] ∧
    (v.remove_empty).data =
      v.data.filter (fun kf =>
        (kf.2.drop 9).any (fun x => !(pyContainsChar '.' (gtOf x)))) := by
  refine ⟨rfl, rfl, ?_⟩
  show v.data.foldl _ [] = _
  rw [foldl_remove_empty_eq v.data [] hnd (by intro k _ hk; simp [keysOf] at hk)]
  rw [List.nil_append]
  apply List.filter_congr
  intro kf _
  unfold recordEmpty
  rw [List.any_eq_not_all_not]
  simp

/-- A store with one fully-missing record, one partial call and one real
    call, for the `remove_empty` witness. -/
def storeMixedCalls : VCFResult :=
  ⟨[], ["#CHROM", "POS", "ID", "REF", "ALT", "QUAL", "FILTER", "INFO", "FORMAT", "S1"],
   [("chr1:100:G:C", ["chr1", "100", ".", "G", "C", ".", ".", ".", "GT", "./."]),
    ("chr2:200:A:T", ["chr2", "200", ".", "A", "T", ".", ".", ".", "GT", "./1"]),
    ("chr3:300:C:G", ["chr3", "300", ".", "C", "G", ".", ".", ".", "GT", "0/1"])]⟩

/-- Witness for C9's amended theorem: on `storeMixedCalls` only the
    fully-called record survives. -/
theorem remove_empty_spec_witness :
    ((keysOf storeMixedCalls.data).Nodup ∧
      storeMixedCalls.data.filter (fun kf =>
        (kf.2.drop 9).any (fun x => !(pyContainsChar '.' (gtOf x)))) =
      [("chr3:300:C:G", ["chr3", "300", ".", "C", "G", ".", ".", ".", "GT", "0/1"])]) ∧
    (storeMixedCalls.remove_empty).head = storeMixedCalls.head ∧
    (storeMixedCalls.remove_empty).data =
      storeMixedCalls.data.filter (fun kf =>
        (kf.2.drop 9).any (fun x => !(pyContainsChar '.' (gtOf x)))) := by
  have h := remove_empty_spec storeMixedCalls (by decide)
  exact ⟨⟨by decide, by decide⟩, h.1, h.2.2⟩

/-! ## Claim theorems: strip -/

theorem stripFields_fixed {subs f g : List String}
    (h : stripFields subs f = some g) :
    g.get? 2 = some "." ∧ g.get? 5 = f.get? 5 ∧
    g.get? 6 = some "." ∧ g.get? 7 = some "." := by
  obtain ⟨fmt, idxs, newTail, hlen, _, _, _, hg⟩ := stripFields_some_unfold h
  subst hg
  have hproj : ∀ j, j < 9 →
      (((((f.set 2 ".").set 6 ".").set 7 ".").set 8 (joinCh ':' subs)).take 9
        ++ newTail).get? j =
      ((((f.set 2 ".").set 6 ".").set 7 ".").set 8 (joinCh ':' subs))[j]? := by
    intro j hj
    rw [List.get?_eq_getElem?, List.getElem?_append]
    rw [if_pos (by simp only [List.length_take, List.length_set]; omega)]
    rw [List.getElem?_take, if_pos hj]
  refine ⟨?_, ?_, ?_, ?_⟩
  · rw [hproj 2 (by omega)]
    rw [List.getElem?_set_ne (by omega : (8:Nat) ≠ 2),
      List.getElem?_set_ne (by omega : (7:Nat) ≠ 2),
      List.getElem?_set_ne (by omega : (6:Nat) ≠ 2)]
    exact List.getElem?_set_self (by omega)
  · rw [hproj 5 (by omega)]
    rw [List.getElem?_set_ne (by omega : (8:Nat) ≠ 5),
      List.getElem?_set_ne (by omega : (7:Nat) ≠ 5),
      List.getElem?_set_ne (by omega : (6:Nat) ≠ 5),
      List.getElem?_set_ne (by omega : (2:Nat) ≠ 5)]
    rw [List.get?_eq_getElem?]
  · rw [hproj 6 (by omega)]
    rw [List.getElem?_set_ne (by omega : (8:Nat) ≠ 6),
      List.getElem?_set_ne (by omega : (7:Nat) ≠ 6)]
    exact List.getElem?_set_self (by simp only [List.length_set]; omega)
  · rw [hproj 7 (by omega)]
    rw [List.getElem?_set_ne (by omega : (8:Nat) ≠ 7)]
    exact List.getElem?_set_self (by simp only [List.length_set]; omega)

theorem dictMapM_none_of_mem {F : String → List String → Option (List String)}
    {l : List (String × List String)} {k : String} {f : List String}
    (hmem : (k, f) ∈ l) (hF : F k f = none) : dictMapM F l = none := by
  unfold dictMapM
  suffices hgen : ∀ acc, optFold (fun acc kf =>
      match F kf.1 kf.2 with
      | none => none
      | some g => some (dictInsert acc kf.1 g)) acc l = none from hgen []
  induction l with
  | nil => cases hmem
  | cons a t ih =>
    intro acc
    rcases List.mem_cons.1 hmem with rfl | hm
    · simp only [optFold, hF]
    · cases ha : F a.1 a.2 with
      | none => simp only [optFold, ha]
      | some g => simp only [optFold, ha]; exact ih hm _

theorem stripFields_none_of_missing {subs f : List String} {fmt s : String}
    (hfmt : f.get? 8 = some fmt) (hs : s ∈ subs)
    (hnone : pyIndex s (splitOnCh ':' fmt) = none) :
    stripFields subs f = none := by
  have hlen : 8 < f.length := by
    rcases List.get?_eq_some.1 hfmt with ⟨hl, _⟩
    exact hl
  have e2 : setIdx f 2 "." = some (f.set 2 ".") := by
    unfold setIdx
    rw [if_pos (by omega)]
  have e6 : setIdx (f.set 2 ".") 6 "." = some ((f.set 2 ".").set 6 ".") := by
    unfold setIdx
    rw [if_pos (by simp only [List.length_set]; omega)]
  have e7 : setIdx ((f.set 2 ".").set 6 ".") 7 "." =
      some (((f.set 2 ".").set 6 ".").set 7 ".") := by
    unfold setIdx
    rw [if_pos (by simp only [List.length_set]; omega)]
  have e8 : (((f.set 2 ".").set 6 ".").set 7 ".").get? 8 = some fmt := by
    rw [List.get?_eq_getElem?,
      List.getElem?_set_ne (by omega : (7:Nat) ≠ 8),
      List.getElem?_set_ne (by omega : (6:Nat) ≠ 8),
      List.getElem?_set_ne (by omega : (2:Nat) ≠ 8),
      ← List.get?_eq_getElem?]
    exact hfmt
  have eidx : optMap (fun s => pyIndex s (splitOnCh ':' fmt)) subs = none :=
    optMap_eq_none_of_mem hs hnone
  simp only [stripFields, bind, e2, Option.some_bind, e6, e7, e8, eidx,
    Option.none_bind]

theorem strip_none_of_missing {v : VCFResult} {subsL : List String}
    {k : String} {f : List String} {fmt s : String}
    (hk : dictLookup v.data k = some f) (hfmt : f.get? 8 = some fmt)
    (hs : s ∈ ("GT" :: subsL)) (hnone : pyIndex s (splitOnCh ':' fmt) = none) :
    v.strip (some subsL) = none := by
  unfold VCFResult.strip
  rw [dictMapM_none_of_mem (dictLookup_some_mem hk)
    (stripFields_none_of_missing hfmt hs hnone)]
  rfl

/-- C2 (amended): for a store with unique record keys, when the strip
    succeeds the result keeps the header, keeps the keys in order, blanks
    ID, FILTER and INFO (indices 2, 6, 7) with the missing token, leaves
    QUAL (index 5) unchanged — the claim wrongly said QUAL is blanked —
    rewrites FORMAT to the colon-join of `GT` followed by the requested
    names, and rewrites every sample cell to exactly the values at the
    positions the requested names resolve to in that record's original
    FORMAT declaration, in order; and strip fails (an uncaught
    `ValueError`, the spec's `SubfieldNotFound`) whenever some requested
    name — including the implicit `GT` — is absent from some record's
    FORMAT declaration. -/
theorem strip_spec (v : VCFResult) (subsL : List String)
    (hnd : (keysOf v.data).Nodup) :
    (∀ w, v.strip (some subsL) = some w →
      w.head = v.head ∧
      keysOf w.data = keysOf v.data ∧
      ∀ k f, dictLookup v.data k = some f →
        ∃ g fmt idxs,
          dictLookup w.data k = some g ∧
          f.get? 8 = some fmt ∧
          g.get? 2 = some "." ∧
          g.get? 5 = f.get? 5 ∧
          g.get? 6 = some "." ∧
          g.get? 7 = some "." ∧
          g.get? 8 = some (joinCh ':' ("GT" :: subsL)) ∧
          optMap (fun s => pyIndex s (splitOnCh ':' fmt)) ("GT" :: subsL) =
            some idxs ∧
          optMap (fun x => (optMap (fun i => (splitOnCh ':' x).get? i) idxs).map
            (joinCh ':')) (f.drop 9) = some (g.drop 9)) ∧
    (∀ k f fmt s, dictLookup v.data k = some f → f.get? 8 = some fmt →
      s ∈ ("GT" :: subsL) → pyIndex s (splitOnCh ':' fmt) = none →
      v.strip (some subsL) = none) := by
  constructor
  · intro w hw
    refine ⟨(strip_some_unfold hw).2.1, strip_keys hnd hw, ?_⟩
    intro k f hk
    obtain ⟨g, hsf, hg⟩ := strip_lookup hnd hw hk
    obtain ⟨hfix2, hfix5, hfix6, hfix7⟩ := stripFields_fixed hsf
    obtain ⟨idxs, fmt, hfmt, hidx, htail⟩ := stripFields_drop9 hsf
    exact ⟨g, fmt, idxs, hg, hfmt, hfix2, hfix5, hfix6, hfix7,
      stripFields_get8 hsf, hidx, htail⟩
  · intro k f fmt s hk hfmt hs hnone
    exact strip_none_of_missing hk hfmt hs hnone

/-- The strip of `storeQual` with requested subfields `[AD]`, computed
    from the embedding (QUAL `50` survives). -/
def stripQualAD : VCFResult :=
  ⟨[], storeQual.head,
   [("chr1:100:G:C",
     ["chr1", "100", ".", "G", "C", "50", ".", ".", "GT:AD", "0/1:10,5"])]⟩

/-- Witness for C2's amended theorem at `storeQual` with subfields
    `[AD]`, including a record-level instance. -/
theorem strip_spec_witness :
    storeQual.strip (some ["AD"]) = some stripQualAD ∧
    stripQualAD.head = storeQual.head ∧
    keysOf stripQualAD.data = keysOf storeQual.data ∧
    (∃ g fmt idxs,
      dictLookup stripQualAD.data "chr1:100:G:C" = some g ∧
      (["chr1", "100", "rs1", "G", "C", "50", "PASS", "AC=1", "GT:AD", "0/1:10,5"] :
        List String).get? 8 = some fmt ∧
      g.get? 2 = some "." ∧
      g.get? 5 = (["chr1", "100", "rs1", "G", "C", "50", "PASS", "AC=1", "GT:AD",
        "0/1:10,5"] : List String).get? 5 ∧
      g.get? 6 = some "." ∧
      g.get? 7 = some "." ∧
      g.get? 8 = some (joinCh ':' ("GT" :: ["AD"])) ∧
      optMap (fun s => pyIndex s (splitOnCh ':' fmt)) ("GT" :: ["AD"]) = some idxs ∧
      optMap (fun x => (optMap (fun i => (splitOnCh ':' x).get? i) idxs).map
        (joinCh ':'))
        ((["chr1", "100", "rs1", "G", "C", "50", "PASS", "AC=1", "GT:AD",
          "0/1:10,5"] : List String).drop 9) = some (g.drop 9)) := by
  have hs : storeQual.strip (some ["AD"]) = some stripQualAD := by decide
  have h := (strip_spec storeQual ["AD"] (by decide)).1 stripQualAD hs
  exact ⟨hs, h.1, h.2.1,
    h.2.2 "chr1:100:G:C"
      ["chr1", "100", "rs1", "G", "C", "50", "PASS", "AC=1", "GT:AD", "0/1:10,5"]
      (by decide)⟩

/-! ## Claim theorems: threshold filters -/

theorem optMap_get? {f : α → Option β} {l : List α} {r : List β}
    (h : optMap f l = some r) :
    ∀ j x, l.get? j = some x → ∃ y, f x = some y ∧ r.get? j = some y := by
  induction l generalizing r with
  | nil => intro j x hx; simp [List.get?] at hx
  | cons a t ih =>
    rcases optMap_cons_eq_some.1 h with ⟨b, r', hb, hr, rfl⟩
    intro j x hx
    cases j with
    | zero =>
      simp only [List.get?] at hx
      cases hx
      exact ⟨b, hb, rfl⟩
    | succ j' =>
      simp only [List.get?] at hx
      rcases ih hr j' x hx with ⟨y, hy, hry⟩
      exact ⟨y, hy, by simpa [List.get?] using hry⟩

theorem filterDpCell_cases {T : Int} {i : Nat} {x y : String}
    (h : filterDpCell T i x = some y) :
    ∃ dp, (splitOnCh ':' x).get? i = some dp ∧
      ((dp = "." ∧ y = "./." ++ strTimes ":." ((splitOnCh ':' x).length - 1)) ∨
       (dp ≠ "." ∧ ∃ z, pyInt dp = some z ∧
         ((z < T ∧ y = "./." ++ strTimes ":." ((splitOnCh ':' x).length - 1)) ∨
          (¬ z < T ∧ y = x)))) := by
  simp only [filterDpCell, bind, Option.bind_eq_some, Option.pure_def,
    Option.some.injEq] at h
  obtain ⟨dp, hdp, h⟩ := h
  refine ⟨dp, hdp, ?_⟩
  by_cases hdot : dp = "."
  · left
    rw [if_pos hdot] at h
    simp only [Option.some.injEq] at h
    exact ⟨hdot, h.symm⟩
  · right
    rw [if_neg hdot] at h
    simp only [Option.bind_eq_some, Option.some.injEq] at h
    obtain ⟨z, hz, hy⟩ := h
    refine ⟨hdot, z, hz, ?_⟩
    by_cases hlt : z < T
    · left
      rw [if_pos hlt] at hy
      exact ⟨hlt, hy.symm⟩
    · right
      rw [if_neg hlt] at hy
      exact ⟨hlt, hy.symm⟩

theorem filterAfCell_cases {T : ℚ} {i : Nat} {x y : String}
    (h : filterAfCell T i x = some y) :
    ∃ af, (splitOnCh ':' x).get? i = some af ∧
      ((af = "." ∧ y = "./." ++ strTimes ":." ((splitOnCh ':' x).length - 1)) ∨
       (af ≠ "." ∧ ∃ z, pyFloat af = some z ∧
         ((z < T ∧ y = "./." ++ strTimes ":." ((splitOnCh ':' x).length - 1)) ∨
          (¬ z < T ∧ y = x)))) := by
  simp only [filterAfCell, bind, Option.bind_eq_some, Option.pure_def,
    Option.some.injEq] at h
  obtain ⟨af, haf, h⟩ := h
  refine ⟨af, haf, ?_⟩
  by_cases hdot : af = "."
  · left
    rw [if_pos hdot] at h
    simp only [Option.some.injEq] at h
    exact ⟨hdot, h.symm⟩
  · right
    rw [if_neg hdot] at h
    simp only [Option.bind_eq_some, Option.some.injEq] at h
    obtain ⟨z, hz, hy⟩ := h
    refine ⟨hdot, z, hz, ?_⟩
    by_cases hlt : z < T
    · left
      rw [if_pos hlt] at hy
      exact ⟨hlt, hy.symm⟩
    · right
      rw [if_neg hlt] at hy
      exact ⟨hlt, hy.symm⟩

theorem filterDp_char (v w : VCFResult) (T : Int)
    (hnd : (keysOf v.data).Nodup) (hw : v.filter_dp T = some w) :
    w.head = v.head ∧ keysOf w.data = keysOf v.data ∧
    ∀ k f, dictLookup v.data k = some f →
      ∃ g fmt i, dictLookup w.data k = some g ∧
        f.get? 8 = some fmt ∧ pyIndex "DP" (splitOnCh ':' fmt) = some i ∧
        g.take 9 = f.take 9 ∧ (g.drop 9).length = (f.drop 9).length ∧
        ∀ j x, (f.drop 9).get? j = some x →
          ∃ dp, (splitOnCh ':' x).get? i = some dp ∧
            ((dp = "." ∨ (∃ z, pyInt dp = some z ∧ z < T)) →
              (g.drop 9).get? j =
                some ("./." ++ strTimes ":." ((splitOnCh ':' x).length - 1))) ∧
            ((dp ≠ "." ∧ ∀ z, pyInt dp = some z → ¬ z < T) →
              (g.drop 9).get? j = some x) := by
  unfold VCFResult.filter_dp at hw
  rcases Option.map_eq_some'.1 hw with ⟨d, hd, rfl⟩
  rw [dictMapM_eq_optMap hnd] at hd
  refine ⟨rfl, optMap_pair_keys hd, ?_⟩
  intro k f hk
  obtain ⟨g, hrec, hg⟩ := optMap_pair_lookup hd hk
  simp only [bind, Option.bind_eq_some, Option.pure_def, Option.some.injEq] at hrec
  obtain ⟨fmt, hfmt, i, hi, newTail, htail, hgeq⟩ := hrec
  subst hgeq
  have hlen8 : 8 < f.length := (List.get?_eq_some.1 hfmt).1
  set L : List String := f.take 9 with hLdef
  have htk : L.length = 9 := by
    rw [hLdef]
    simp only [List.length_take]
    omega
  have hgtake : (L ++ newTail).take 9 = L := by
    rw [← htk, List.take_left]
  have hgdrop : (L ++ newTail).drop 9 = newTail := by
    rw [← htk, List.drop_left]
  refine ⟨_, fmt, i, hg, hfmt, hi, hgtake, ?_, ?_⟩
  · rw [hgdrop]
    exact optMap_length htail
  · intro j x hx
    obtain ⟨y, hy, hry⟩ := optMap_get? htail j x hx
    obtain ⟨dp, hdp, hcases⟩ := filterDpCell_cases hy
    refine ⟨dp, hdp, ?_, ?_⟩
    · intro hcond
      rw [hgdrop]
      rcases hcases with ⟨hdot, rfl⟩ | ⟨hne, z, hz, hc2⟩
      · exact hry
      · rcases hc2 with ⟨hlt, rfl⟩ | ⟨hnlt, rfl⟩
        · exact hry
        · rcases hcond with hdot | ⟨z', hz', hlt'⟩
          · exact absurd hdot hne
          · rw [hz] at hz'
            cases hz'
            exact absurd hlt' hnlt
    · rintro ⟨hne', hall⟩
      rw [hgdrop]
      rcases hcases with ⟨hdot, rfl⟩ | ⟨hne, z, hz, hc2⟩
      · exact absurd hdot hne'
      · rcases hc2 with ⟨hlt, rfl⟩ | ⟨hnlt, rfl⟩
        · exact absurd hlt (hall z hz)
        · exact hry

theorem filterAf_char (v w : VCFResult) (T : ℚ)
    (hnd : (keysOf v.data).Nodup) (hw : v.filter_af T = some w) :
    w.head = v.head ∧ keysOf w.data = keysOf v.data ∧
    ∀ k f, dictLookup v.data k = some f →
      ∃ g fmt i, dictLookup w.data k = some g ∧
        f.get? 8 = some fmt ∧ pyIndex "AF" (splitOnCh ':' fmt) = some i ∧
        g.take 9 = f.take 9 ∧ (g.drop 9).length = (f.drop 9).length ∧
        ∀ j x, (f.drop 9).get? j = some x →
          ∃ af, (splitOnCh ':' x).get? i = some af ∧
            ((af = "." ∨ (∃ z, pyFloat af = some z ∧ z < T)) →
              (g.drop 9).get? j =
                some ("./." ++ strTimes ":." ((splitOnCh ':' x).length - 1))) ∧
            ((af ≠ "." ∧ ∀ z, pyFloat af = some z → ¬ z < T) →
              (g.drop 9).get? j = some x) := by
  unfold VCFResult.filter_af at hw
  rcases Option.map_eq_some'.1 hw with ⟨d, hd, rfl⟩
  rw [dictMapM_eq_optMap hnd] at hd
  refine ⟨rfl, optMap_pair_keys hd, ?_⟩
  intro k f hk
  obtain ⟨g, hrec, hg⟩ := optMap_pair_lookup hd hk
  simp only [bind, Option.bind_eq_some, Option.pure_def, Option.some.injEq] at hrec
  obtain ⟨fmt, hfmt, i, hi, newTail, htail, hgeq⟩ := hrec
  subst hgeq
  have hlen8 : 8 < f.length := (List.get?_eq_some.1 hfmt).1
  set L : List String := f.take 9 with hLdef
  have htk : L.length = 9 := by
    rw [hLdef]
    simp only [List.length_take]
    omega
  have hgtake : (L ++ newTail).take 9 = L := by
    rw [← htk, List.take_left]
  have hgdrop : (L ++ newTail).drop 9 = newTail := by
    rw [← htk, List.drop_left]
  refine ⟨_, fmt, i, hg, hfmt, hi, hgtake, ?_, ?_⟩
  · rw [hgdrop]
    exact optMap_length htail
  · intro j x hx
    obtain ⟨y, hy, hry⟩ := optMap_get? htail j x hx
    obtain ⟨af, haf, hcases⟩ := filterAfCell_cases hy
    refine ⟨af, haf, ?_, ?_⟩
    · intro hcond
      rw [hgdrop]
      rcases hcases with ⟨hdot, rfl⟩ | ⟨hne, z, hz, hc2⟩
      · exact hry
      · rcases hc2 with ⟨hlt, rfl⟩ | ⟨hnlt, rfl⟩
        · exact hry
        · rcases hcond with hdot | ⟨z', hz', hlt'⟩
          · exact absurd hdot hne
          · rw [hz] at hz'
            cases hz'
            exact absurd hlt' hnlt
    · rintro ⟨hne', hall⟩
      rw [hgdrop]
      rcases hcases with ⟨hdot, rfl⟩ | ⟨hne, z, hz, hc2⟩
      · exact absurd hdot hne'
      · rcases hc2 with ⟨hlt, rfl⟩ | ⟨hnlt, rfl⟩
        · exact absurd hlt (hall z hz)
        · exact hry

/-- C8: for both threshold filters, on a store with unique keys whose
    every record's FORMAT declares the filtered subfield (implied by the
    filter succeeding), a sample cell is replaced by the all-missing
    template `./.` followed by `c − 1` repetitions of `:.` — `c` being
    that cell's own colon-cardinality — exactly when the subfield's
    value is the missing token or numerically below the threshold
    (integer semantics for DP, exact decimal semantics over `ℚ`
    modelling the float comparison for AF), and is left unchanged
    otherwise; the header and the record keys are preserved. -/
theorem filter_threshold_spec :
    (∀ (v w : VCFResult) (T : Int), (keysOf v.data).Nodup →
      v.filter_dp T = some w →
      w.head = v.head ∧ keysOf w.data = keysOf v.data ∧
      ∀ k f, dictLookup v.data k = some f →
        ∃ g fmt i, dictLookup w.data k = some g ∧
          f.get? 8 = some fmt ∧ pyIndex "DP" (splitOnCh ':' fmt) = some i ∧
          g.take 9 = f.take 9 ∧ (g.drop 9).length = (f.drop 9).length ∧
          ∀ j x, (f.drop 9).get? j = some x →
            ∃ dp, (splitOnCh ':' x).get? i = some dp ∧
              ((dp = "." ∨ (∃ z, pyInt dp = some z ∧ z < T)) →
                (g.drop 9).get? j =
                  some ("./." ++ strTimes ":." ((splitOnCh ':' x).length - 1))) ∧
              ((dp ≠ "." ∧ ∀ z, pyInt dp = some z → ¬ z < T) →
                (g.drop 9).get? j = some x)) ∧
    (∀ (v w : VCFResult) (T : ℚ), (keysOf v.data).Nodup →
      v.filter_af T = some w →
      w.head = v.head ∧ keysOf w.data = keysOf v.data ∧
      ∀ k f, dictLookup v.data k = some f →
        ∃ g fmt i, dictLookup w.data k = some g ∧
          f.get? 8 = some fmt ∧ pyIndex "AF" (splitOnCh ':' fmt) = some i ∧
          g.take 9 = f.take 9 ∧ (g.drop 9).length = (f.drop 9).length ∧
          ∀ j x, (f.drop 9).get? j = some x →
            ∃ af, (splitOnCh ':' x).get? i = some af ∧
              ((af = "." ∨ (∃ z, pyFloat af = some z ∧ z < T)) →
                (g.drop 9).get? j =
                  some ("./." ++ strTimes ":." ((splitOnCh ':' x).length - 1))) ∧
              ((af ≠ "." ∧ ∀ z, pyFloat af = some z → ¬ z < T) →
                (g.drop 9).get? j = some x)) :=
  ⟨fun v w T hnd hw => filterDp_char v w T hnd hw,
   fun v w T hnd hw => filterAf_char v w T hnd hw⟩

/-- The depth filter of `storeDP` at threshold 12, computed from the
    embedding: the DP=15 cell is retained, the DP=8 cell becomes
    `./.:.:.`. -/
def filteredDP : VCFResult :=
  ⟨[], storeDP.head,
   [("chr1:100:G:C",
     ["chr1", "100", ".", "G", "C", ".", ".", ".", "GT:AD:DP",
      "0/1:10,5:15", "./.:.:."])]⟩

/-- The frequency filter of `storeAF` at threshold 1/10, computed from
    the embedding: the AF=0.25 cell is retained, the AF=0.05 cell
    becomes `./.:.`. -/
def filteredAF : VCFResult :=
  ⟨[], storeAF.head,
   [("chr1:100:G:C",
     ["chr1", "100", ".", "G", "C", ".", ".", ".", "GT:AF",
      "0/1:0.25", "./.:."])]⟩

/-- Witness for C8 at the spec's concrete scenario: depth threshold 12
    keeps `0/1:10,5:15` and nulls the DP=8 cell to `./.:.:.`; frequency
    threshold 1/10 keeps `0/1:0.25` and nulls the AF=0.05 cell to
    `./.:.`. -/
theorem filter_threshold_spec_witness :
    storeDP.filter_dp 12 = some filteredDP ∧
    storeAF.filter_af (mkRat 1 10) = some filteredAF ∧
    filteredDP.head = storeDP.head ∧
    keysOf filteredDP.data = keysOf storeDP.data ∧
    filteredAF.head = storeAF.head ∧
    keysOf filteredAF.data = keysOf storeAF.data := by
  have hdp : storeDP.filter_dp 12 = some filteredDP := by decide
  have haf : storeAF.filter_af (mkRat 1 10) = some filteredAF := by decide
  have h1 := filter_threshold_spec.1 storeDP filteredDP 12 (by decide) hdp
  have h2 := filter_threshold_spec.2 storeAF filteredAF (mkRat 1 10) (by decide) haf
  exact ⟨hdp, haf, h1.1, h1.2.1, h2.1, h2.2.1⟩

/-! ## Claim theorems: serialize/parse round trip -/

/-- A field row whose tab-joined line survives the parse-time strip and
    re-split unchanged. -/
def lineStable (f : List String) : Prop :=
  splitOnCh '\t' (pyStrip (joinCh '\t' f)) = f

instance : DecidablePred lineStable := fun f =>
  decEq (splitOnCh '\t' (pyStrip (joinCh '\t' f))) f

/-- The stores on which the serialize/parse round trip is exact: meta
    lines carry the `##` marker, the header line carries `#CHROM`, every
    record line re-parses as a data line with at least five fields, its
    stored key is the composite key of its fields, and keys are
    unique. -/
def wellFormedStore (v : VCFResult) : Prop :=
  (∀ l ∈ v.meta, pyStartsWith "##" l = true) ∧
  pyStartsWith "##" (joinCh '\t' v.head) = false ∧
  pyStartsWith "#CHROM" (joinCh '\t' v.head) = true ∧
  lineStable v.head ∧
  (keysOf v.data).Nodup ∧
  ∀ kf ∈ v.data,
    pyStartsWith "##" (joinCh '\t' kf.2) = false ∧
    pyStartsWith "#CHROM" (joinCh '\t' kf.2) = false ∧
    lineStable kf.2 ∧
    4 < kf.2.length ∧
    kf.1 = ((kf.2.get? 0).getD "") ++ ":" ++ ((kf.2.get? 1).getD "") ++ ":" ++
      ((kf.2.get? 3).getD "") ++ ":" ++ ((kf.2.get? 4).getD "")

theorem readLines_meta_phase :
    ∀ (ms : List String) (v : VCFResult), (∀ l ∈ ms, pyStartsWith "##" l = true) →
    optFold readStep v ms = some ⟨v.meta ++ ms, v.head, v.data⟩ := by
  intro ms
  induction ms with
  | nil => intro v _; simp [optFold]
  | cons m t ih =>
    intro v hm
    have hstep : readStep v m = some ⟨v.meta ++ [m], v.head, v.data⟩ := by
      unfold readStep
      rw [if_pos (hm m (List.mem_cons_self m t))]
    simp only [optFold, hstep]
    rw [ih ⟨v.meta ++ [m], v.head, v.data⟩ (fun l hl => hm l (List.mem_cons_of_mem m hl))]
    simp

theorem keysOf_cons {k : String} {f : α} {t : List (String × α)} :
    keysOf ((k, f) :: t) = k :: keysOf t := rfl

theorem readLines_record_phase :
    ∀ (rs : List (String × List String)) (v : VCFResult),
    (keysOf rs).Nodup →
    (∀ k ∈ keysOf rs, k ∉ keysOf v.data) →
    (∀ kf ∈ rs,
      pyStartsWith "##" (joinCh '\t' kf.2) = false ∧
      pyStartsWith "#CHROM" (joinCh '\t' kf.2) = false ∧
      lineStable kf.2 ∧
      4 < kf.2.length ∧
      kf.1 = ((kf.2.get? 0).getD "") ++ ":" ++ ((kf.2.get? 1).getD "") ++ ":" ++
        ((kf.2.get? 3).getD "") ++ ":" ++ ((kf.2.get? 4).getD "")) →
    optFold readStep v (rs.map (fun kf => joinCh '\t' kf.2)) =
      some ⟨v.meta, v.head, v.data ++ rs⟩ := by
  intro rs
  induction rs with
  | nil => intro v _ _ _; simp [optFold]
  | cons kf t ih =>
    intro v hnd hdisj hrec
    obtain ⟨k, f⟩ := kf
    obtain ⟨hc1, hc2, hst, hlen, hkey⟩ := hrec (k, f) (List.mem_cons_self _ _)
    have hlen' : 4 < f.length := hlen
    rw [keysOf_cons, List.nodup_cons] at hnd
    obtain ⟨a0, h0⟩ : ∃ a, f.get? 0 = some a := by
      cases h : f.get? 0 with
      | none =>
        rw [List.get?_eq_none] at h
        exact absurd h (by omega)
      | some a => exact ⟨a, rfl⟩
    obtain ⟨a1, hone⟩ : ∃ a, f.get? 1 = some a := by
      cases h : f.get? 1 with
      | none =>
        rw [List.get?_eq_none] at h
        exact absurd h (by omega)
      | some a => exact ⟨a, rfl⟩
    obtain ⟨a3, h3⟩ : ∃ a, f.get? 3 = some a := by
      cases h : f.get? 3 with
      | none =>
        rw [List.get?_eq_none] at h
        exact absurd h (by omega)
      | some a => exact ⟨a, rfl⟩
    obtain ⟨a4, h4⟩ : ∃ a, f.get? 4 = some a := by
      cases h : f.get? 4 with
      | none =>
        rw [List.get?_eq_none] at h
        exact absurd h (by omega)
      | some a => exact ⟨a, rfl⟩
    have hkey' : k = a0 ++ ":" ++ a1 ++ ":" ++ a3 ++ ":" ++ a4 := by
      have : (k, f).1 = k := rfl
      rw [← this, hkey, h0, hone, h3, h4]
      rfl
    have hstep : readStep v (joinCh '\t' f) =
        some ⟨v.meta, v.head, dictInsert v.data k f⟩ := by
      unfold readStep
      rw [if_neg (by rw [hc1]; exact Bool.false_ne_true)]
      rw [if_neg (by rw [hc2]; exact Bool.false_ne_true)]
      unfold lineStable at hst
      rw [hst]
      simp only [bind, h0, Option.some_bind, hone, h3, h4, Option.pure_def]
      rw [← hkey']
    have hfresh : k ∉ keysOf v.data := hdisj k (by rw [keysOf_cons]; exact List.mem_cons_self _ _)
    simp only [List.map_cons, optFold, hstep]
    rw [dictInsert_fresh hfresh]
    have hdisj2 : ∀ k' ∈ keysOf t, k' ∉ keysOf (v.data ++ [(k, f)]) := by
      intro k' hk'
      rw [keysOf_append]
      intro hmem
      rcases List.mem_append.1 hmem with hm | hm
      · exact hdisj k' (by rw [keysOf_cons]; exact List.mem_cons_of_mem _ hk') hm
      · have : k' = k := by simpa [keysOf] using hm
        subst this
        exact hnd.1 hk'
    rw [ih ⟨v.meta, v.head, v.data ++ [(k, f)]⟩ hnd.2 hdisj2
      (fun kf hkf => hrec kf (List.mem_cons_of_mem _ hkf))]
    simp

/-- C7 (amended): for every well-formed store (see `wellFormedStore`),
    parsing the serialized lines returns the store itself, so
    re-serializing is byte-identical; for arbitrary stores the claim
    fails (see the counterexample with duplicate composite keys). -/
theorem roundtrip_wellformed (v : VCFResult) (h : wellFormedStore v) :
    readLines (serializeLines v) = some v ∧
    (readLines (serializeLines v)).map serializeLines =
      some (serializeLines v) := by
  obtain ⟨hmeta, hh1, hh2, hhst, hnd, hrec⟩ := h
  have h1 : readLines (serializeLines v) = some v := by
    unfold readLines serializeLines
    rw [List.append_assoc]
    rw [optFold_append]
    rw [readLines_meta_phase v.meta ⟨[], VCF_HEADERS, []⟩ hmeta]
    dsimp only
    rw [List.nil_append]
    have hhead : readStep ⟨v.meta, VCF_HEADERS, []⟩ (joinCh '\t' v.head) =
        some ⟨v.meta, v.head, []⟩ := by
      unfold readStep
      rw [if_neg (by rw [hh1]; exact Bool.false_ne_true)]
      rw [if_pos hh2]
      unfold lineStable at hhst
      rw [hhst]
    rw [List.singleton_append]
    simp only [optFold, hhead]
    rw [readLines_record_phase v.data ⟨v.meta, v.head, []⟩ hnd
      (by intro k _ hk; simp [keysOf] at hk) hrec]
    rfl
  refine ⟨h1, by rw [h1]; rfl⟩

/-- A well-formed store with a metadata line, used as the round-trip
    witness. -/
def storeWithMeta : VCFResult :=
  ⟨["##fileformat=VCFv4.2"], storeA.head, storeA.data⟩

/-- Witness for C7's amended theorem at a concrete well-formed store. -/
theorem roundtrip_wellformed_witness :
    wellFormedStore storeWithMeta ∧
    readLines (serializeLines storeWithMeta) = some storeWithMeta ∧
    (readLines (serializeLines storeWithMeta)).map serializeLines =
      some (serializeLines storeWithMeta) := by
  have hw : wellFormedStore storeWithMeta := by
    unfold wellFormedStore lineStable
    decide
  have h := roundtrip_wellformed storeWithMeta hw
  exact ⟨hw, h.1, h.2⟩
